import Mathlib

set_option maxHeartbeats 1000000

/-
Verification development for the ELL model-transformation core
(ModelTransformer / TransformContext / pass framework) and the
DataLoadArguments configuration struct.

The repository excerpt contains the public header `ModelTransformer.h`
(declarations of TransformContext, ModelTransformer and their operations),
the struct `DataLoadArguments.h`, and the build file naming the two
standard passes.  The implementations (Model.h / ModelTransformer.cpp /
FuseLinearOperationsPass.cpp / SetConvolutionMethodPass.cpp) are not part
of the excerpt, so the corresponding definitions below are modelled from
the specification's description of their behaviour; every such definition
is marked `Modelled from the spec:`.
-/

namespace ell

/-- Modelled from the spec: element types of typed ports (the concrete
`Port::PortType` enumeration is not in the excerpt; a representative
closed set of element types is used). -/
inductive PortType
  | real
  | integer
  | boolean
deriving DecidableEq

/-- Modelled from the spec: one (output-port reference, start offset, length)
triple of a PortElements value: it references `length` consecutive elements
of output port `portIndex` of the node with identity `nodeId`, starting at
offset `start` (`PortElements.h` is not in the excerpt). -/
structure PortRange where
  nodeId : Nat
  portIndex : Nat
  start : Nat
  length : Nat
deriving DecidableEq

/-- Modelled from the spec: a PortElements value is an ordered sequence of
port-range references, possibly drawn from multiple producer nodes. -/
abbrev PortElements := List PortRange

/-- Total number of elements referenced by a PortElements value. -/
def totalLen (elems : PortElements) : Nat :=
  (elems.map (fun r => r.length)).sum

/-- Modelled from the spec: implementation strategies the
convolution-method selection pass can retarget a convolution node to
(direct vs. transform-domain variants). -/
inductive ConvolutionMethod
  | automatic
  | simple
  | unrolled
  | winograd
deriving DecidableEq

/-- Modelled from the spec: the discriminant identifying a node's concrete
variant.  The transformer supports an open set of node kinds; this closed
set contains the variants the specification's claims mention: graph entry
points, affine (scale/bias) nodes, convolution nodes carrying an
implementation strategy, a variant whose Refine emits an equivalent node
forever, a variant that lowers itself a bounded number of times, and an
uninterpreted terminal variant. -/
inductive NodeKind
  | input (t : PortType) (size : Nat)
  | affine (scale bias : Int)
  | conv (method : ConvolutionMethod) (inputSize outputSize : Nat)
  | stubborn (tag : Nat)
  | lowerable (steps : Nat)
  | sink (tag : Nat)
deriving DecidableEq

/-- Modelled from the spec: the node variant's `IsCompilable()` self-report.
Variants that still want lowering report false. -/
def NodeKind.IsCompilable : NodeKind → Bool
  | .stubborn _ => false
  | .lowerable (_ + 1) => false
  | _ => true

/-- Modelled from the spec: the node variant's `Refine` behaviour, as the
replacement variant it emits (`none` means "no further refinement
possible, treat as terminal").  The `stubborn` variant refines into an
equivalent node; `lowerable` lowers itself one step. -/
def refineKind : NodeKind → Option NodeKind
  | .stubborn tag => some (.stubborn tag)
  | .lowerable (n + 1) => some (.lowerable n)
  | _ => none

/-- Modelled from the spec: a graph vertex: identity (unique id), an ordered
list of input ports (each given by the PortElements value it consumes), an
ordered list of typed, fixed-size output ports, and its variant
discriminant. -/
structure Node where
  id : Nat
  kind : NodeKind
  inputs : List PortElements
  outputs : List (PortType × Nat)
deriving DecidableEq

/-- Default port specification used by total indexing helpers. -/
def dfltPort : PortType × Nat := (PortType.real, 0)

/-- Size (element count) of output port `i` of node `p`. -/
def portSize (p : Node) (i : Nat) : Nat :=
  (p.outputs.getD i dfltPort).2

/-- Modelled from the spec: a Model is an owned collection of nodes in a
deterministic order consistent with the DAG's partial order (dependencies
before dependents). -/
structure Model where
  nodes : List Node
deriving DecidableEq

/-- An action to perform on a node during transformation
(refinement/compilation); from `ModelTransformer.h`. -/
inductive NodeAction
  | defaultAction
  | refine
  | compile
deriving DecidableEq

/-- A function that determines how to process a node; from
`ModelTransformer.h`. -/
abbrev NodeActionFunction := Node → NodeAction

/-- A context object that carries information about the compiler or other
process driving the transformation; from `ModelTransformer.h`.  It holds a
single pluggable decision function. -/
structure TransformContext where
  nodeActionFunction : NodeActionFunction

/-- The default-constructed context: the decision function returns the
default action for every node. -/
def defaultContext : TransformContext :=
  ⟨fun _ => NodeAction.defaultAction⟩

/-- Gets the action to take on the node during refinement; from
`ModelTransformer.h`. -/
def TransformContext.GetNodeAction (context : TransformContext) (node : Node) : NodeAction :=
  context.nodeActionFunction node

/-- Modelled from the spec: `TransformContext::IsNodeCompilable` (its body
is in the missing ModelTransformer.cpp): true if the context's decision
function does not mark the node for refinement and the node variant
self-reports as compilable. -/
def TransformContext.IsNodeCompilable (context : TransformContext) (node : Node) : Bool :=
  match context.GetNodeAction node with
  | .refine => false
  | _ => node.kind.IsCompilable

/-- Modelled from the spec: whether a refinement iteration invokes the
node's Refine behaviour instead of Copy: forced by a `refine` decision,
suppressed by a `compile` decision, and otherwise left to the variant's
own self-report. -/
def shouldRefine (context : TransformContext) (node : Node) : Bool :=
  match context.GetNodeAction node with
  | .refine => true
  | .compile => false
  | .defaultAction => (refineKind node.kind).isSome

/-- Modelled from the spec: whether a node actually refines in an
iteration: it was asked to refine and its variant can still refine. -/
def didRefine (context : TransformContext) (node : Node) : Bool :=
  shouldRefine context node && (refineKind node.kind).isSome

/-- Modelled from the spec: the replacement variant a node contributes in a
refinement iteration: its Refine result when it refines, itself when it is
copied. -/
def refineEmit (context : TransformContext) (node : Node) : NodeKind :=
  if didRefine context node then (refineKind node.kind).getD node.kind else node.kind

/-
The transformer engine.  The old-to-new mapping is an association list
keyed by the old output port's (node id, output-port index) pair; the
value is the PortElements in the new model that the old port's values
resolve to.
-/

/-- The old-to-new output mapping owned by a transformer
(`_elementToElementMap`). -/
abbrev PortMap := List ((Nat × Nat) × PortElements)

/-- First-match lookup in an old-to-new output mapping. -/
def lookupMap : PortMap → (Nat × Nat) → Option PortElements
  | [], _ => none
  | (k, v) :: rest, key => if k = key then some v else lookupMap rest key

/-- Number of entries registered for a given old output port. -/
def countKey : PortMap → (Nat × Nat) → Nat
  | [], _ => 0
  | (k, _) :: rest, key => (if k = key then 1 else 0) + countKey rest key

/-- Modelled from the spec: extract the sub-range of `len` elements starting
at offset `start` from the concatenation of element ranges `elems`; fails
when fewer than `start + len` elements are available. -/
def sliceElements : PortElements → Nat → Nat → Option PortElements
  | _, _, 0 => some []
  | [], _, _ + 1 => none
  | r :: rest, start, len + 1 =>
    if start < r.length then
      let t := min (r.length - start) (len + 1)
      match sliceElements rest 0 (len + 1 - t) with
      | some tail => some (⟨r.nodeId, r.portIndex, r.start + start, t⟩ :: tail)
      | none => none
    else
      sliceElements rest (start - r.length) (len + 1)

/-- Modelled from the spec: translate a set of old-model port references
through an old-to-new mapping; fails (missing-mapping failure) when a
referenced old port has no registered entry or the registered value is too
small for the requested sub-range. -/
def lookupCorresponding (map : PortMap) : PortElements → Option PortElements
  | [] => some []
  | r :: rest =>
    match lookupMap map (r.nodeId, r.portIndex) with
    | none => none
    | some v =>
      match sliceElements v r.start r.length with
      | none => none
      | some s =>
        match lookupCorresponding map rest with
        | none => none
        | some tail => some (s ++ tail)

/-- A class that refines or copies models; from `ModelTransformer.h`.  It
owns the new model under construction, the next fresh node identity, the
old-to-new output mapping and the "is the model compilable" flag. -/
structure ModelTransformer where
  model : Model
  nextId : Nat
  elementMap : PortMap
  isModelCompilable : Bool
deriving DecidableEq

/-- A freshly created transformer: empty model, empty mapping. -/
def initialTransformer : ModelTransformer :=
  ⟨⟨[]⟩, 0, [], true⟩

/-- Indicates if the last call produced a compilable model; from
`ModelTransformer.h`. -/
def ModelTransformer.IsModelCompilable (t : ModelTransformer) : Bool :=
  t.isModelCompilable

/-- Transforms a set of output port references from the input model space to
the output model space; from `ModelTransformer.h` (body modelled from the
spec). -/
def ModelTransformer.TransformPortElements (t : ModelTransformer) (elements : PortElements) :
    Option PortElements :=
  lookupCorresponding t.elementMap elements

/-- Returns the port elements from the new model corresponding to the given
elements on the input model; from `ModelTransformer.h` (body modelled from
the spec). -/
def ModelTransformer.GetCorrespondingOutputs (t : ModelTransformer) (elements : PortElements) :
    Option PortElements :=
  t.TransformPortElements elements

/-- Sets up an old-to-new model output mapping; from `ModelTransformer.h`
(body modelled from the spec): registers that references to the old output
port `oldPort` must resolve to `newElements` in the new model. -/
def ModelTransformer.MapNodeOutput (t : ModelTransformer) (oldPort : Nat × Nat)
    (newElements : PortElements) : ModelTransformer :=
  ⟨t.model, t.nextId, t.elementMap ++ [(oldPort, newElements)], t.isModelCompilable⟩

/-- Creates a new node in the transformed model; from `ModelTransformer.h`
(body modelled from the spec): the node receives the next fresh identity
and is appended to the model under construction. -/
def ModelTransformer.AddNode (t : ModelTransformer) (kind : NodeKind)
    (inputs : List PortElements) (outputs : List (PortType × Nat)) :
    Node × ModelTransformer :=
  let node : Node := ⟨t.nextId, kind, inputs, outputs⟩
  (node, ⟨⟨t.model.nodes ++ [node]⟩, t.nextId + 1, t.elementMap, t.isModelCompilable⟩)

/-- Registers the old-to-new mapping for the output ports `outs` of the old
node `oldId`, starting at port index `i`, onto the same-index ports of the
new node `newId`. -/
def mapOutputsAux (oldId newId : Nat) : List (PortType × Nat) → Nat → ModelTransformer →
    ModelTransformer
  | [], _, t => t
  | (_, sz) :: rest, i, t =>
    mapOutputsAux oldId newId rest (i + 1)
      (t.MapNodeOutput (oldId, i) [⟨newId, i, 0, sz⟩])

/-- Option-valued map over a list, failing if any element fails. -/
def optMapList (f : α → Option β) : List α → Option (List β)
  | [] => some []
  | a :: rest =>
    match f a, optMapList f rest with
    | some b, some bs => some (b :: bs)
    | _, _ => none

/-- Modelled from the spec: the per-node emission step shared by Copy and
Refine: translate the node's inputs into the new model space, emit its
replacement node (the variant chosen by `emit`) with the same output port
signature via AddNode, and register the old-to-new mapping for every
output port. -/
def transformNode (emit : Node → NodeKind) (t : ModelTransformer) (n : Node) :
    Option ModelTransformer :=
  match optMapList t.TransformPortElements n.inputs with
  | none => none
  | some newInputs =>
    let (nn, t2) := t.AddNode (emit n) newInputs n.outputs
    some (mapOutputsAux n.id nn.id n.outputs 0 t2)

/-- Modelled from the spec: dependency-order traversal of the source nodes;
each node satisfying the `visit` predicate (given its identity) is emitted
into the model under construction. -/
def transformFold (emit : Node → NodeKind) (visit : Nat → Bool) :
    List Node → ModelTransformer → Option ModelTransformer
  | [], t => some t
  | n :: rest, t =>
    if visit n.id then
      match transformNode emit t n with
      | none => none
      | some t2 => transformFold emit visit rest t2
    else
      transformFold emit visit rest t

/-- Returns a copy of the input model, by calling Copy() on each of the
model's nodes; from `ModelTransformer.h` (body modelled from the spec):
visits all nodes in dependency order and sets the compilable flag for the
resulting model. -/
def ModelTransformer.CopyModel (model : Model) (context : TransformContext) :
    Option ModelTransformer :=
  match transformFold (fun n => n.kind) (fun _ => true) model.nodes initialTransformer with
  | none => none
  | some t =>
    some ⟨t.model, t.nextId, t.elementMap, t.model.nodes.all context.IsNodeCompilable⟩

/-- Identities of the nodes a node directly depends on (the producers its
input port references point at). -/
def directDeps (n : Node) : List Nat :=
  n.inputs.flatten.map (fun r => r.nodeId)

/-- Modelled from the spec: backward marking sweep computing the ancestor
closure of a target node identity.  Nodes are processed in reverse
dependency order (consumers first); a marked node marks all of its
producers. -/
def markAux : List Node → List Nat → List Nat
  | [], acc => acc
  | n :: rest, acc =>
    let acc2 := markAux rest acc
    if n.id ∈ acc2 then acc2 ++ directDeps n else acc2

/-- Modelled from the spec: the identities of the ancestor closure of the
output node (the nodes sufficient to compute it). -/
def ancestorIds (m : Model) (targetId : Nat) : List Nat :=
  markAux m.nodes [targetId]

/-- Returns a copy of a subset of the input model containing the nodes
sufficient to compute the given output node; from `ModelTransformer.h`
(body modelled from the spec): only nodes in the ancestor closure of
`outputNode` are visited. -/
def ModelTransformer.CopyModelRestricted (model : Model) (outputNode : Node)
    (context : TransformContext) : Option ModelTransformer :=
  match transformFold (fun n => n.kind)
      (fun nid => decide (nid ∈ ancestorIds model outputNode.id))
      model.nodes initialTransformer with
  | none => none
  | some t =>
    some ⟨t.model, t.nextId, t.elementMap, t.model.nodes.all context.IsNodeCompilable⟩

/-- Entries mapping output ports `outs` of old node `oldId` (starting at
port index `i`) onto the same-index ports of node `newId` in full. -/
def portEntries (oldId newId : Nat) : Nat → List (PortType × Nat) → PortMap
  | _, [] => []
  | i, (_, sz) :: rest => ((oldId, i), [⟨newId, i, 0, sz⟩]) :: portEntries oldId newId (i + 1) rest

/-- The identity old-to-new mapping for a list of nodes: every output port
is mapped to itself in full. -/
def identityMapAux : List Node → PortMap
  | [] => []
  | n :: rest => portEntries n.id n.id 0 n.outputs ++ identityMapAux rest

/-- The identity old-to-new mapping of a model. -/
def identityMap (m : Model) : PortMap :=
  identityMapAux m.nodes

/-- Compose an accumulated old-to-new mapping with the mapping of a further
transformation step: every value is translated into the newest model
space.  Fails if any value fails to translate. -/
def composeMap (acc : PortMap) (t : ModelTransformer) : Option PortMap :=
  optMapList (fun e => (t.TransformPortElements e.2).map (fun v => (e.1, v))) acc

/-- Modelled from the spec: the bounded refinement loop of `RefineModel`:
each iteration copies the model with refining nodes emitting their
replacement; the loop stops when an iteration produces no change (no node
chose to refine), when every node of the iteration's result reports
compilable under the context, or when the iteration budget is exhausted.
Returns the final model, the number of iterations performed, and the
accumulated old-to-new output mapping from the original model into the
final one. -/
def refineLoop (context : TransformContext) :
    Nat → Model → PortMap → Option (Model × Nat × PortMap)
  | 0, m, acc => some (m, 0, acc)
  | fuel + 1, m, acc =>
    if m.nodes.any (didRefine context) then
      match transformFold (refineEmit context) (fun _ => true) m.nodes initialTransformer with
      | none => none
      | some t =>
        match composeMap acc t with
        | none => none
        | some acc2 =>
          if t.model.nodes.all context.IsNodeCompilable then some (t.model, 1, acc2)
          else
            match refineLoop context fuel t.model acc2 with
            | none => none
            | some (r, j, a) => some (r, j + 1, a)
    else
      some (m, 1, acc)

/-- The result of a RefineModel call: the refined model, the number of
refinement iterations performed, the compilable flag the transformer
reports afterwards, and the old-to-new output mapping from the source
model into the result. -/
structure RefineResult where
  model : Model
  iterations : Nat
  isModelCompilable : Bool
  elementMap : PortMap

/-- The compilable flag of the result; mirrors
`ModelTransformer::IsModelCompilable` after RefineModel. -/
def RefineResult.IsModelCompilable (r : RefineResult) : Bool :=
  r.isModelCompilable

/-- Translate old-model port references through the mapping accumulated by
a RefineModel call; mirrors `ModelTransformer::GetCorrespondingOutputs`
after RefineModel. -/
def RefineResult.GetCorrespondingOutputs (r : RefineResult) (elements : PortElements) :
    Option PortElements :=
  lookupCorresponding r.elementMap elements

/-- Performs one or more refinement iterations on a given model and returns
the result; from `ModelTransformer.h` (body modelled from the spec).  The
`maxIterations` parameter defaults to 10. -/
def ModelTransformer.RefineModel (model : Model) (context : TransformContext)
    (maxIterations : optParam Nat 10) : Option RefineResult :=
  match refineLoop context maxIterations model (identityMap model) with
  | none => none
  | some (r, j, a) => some ⟨r, j, r.nodes.all context.IsNodeCompilable, a⟩

/-- Transforms the model by applying a transformation function to each node;
from `ModelTransformer.h` (body modelled from the spec): the caller-supplied
function receives each old node and the transformer and is responsible for
emitting new nodes and registering mappings. -/
def ModelTransformer.TransformModel (model : Model)
    (transformFunction : Node → ModelTransformer → ModelTransformer)
    (context : TransformContext) : ModelTransformer :=
  let t := model.nodes.foldl (fun t n => transformFunction n t) initialTransformer
  ⟨t.model, t.nextId, t.elementMap, t.model.nodes.all context.IsNodeCompilable⟩

/-- The transformer-protocol obligation of a TransformModel callback: for
every visited node it registers exactly one mapping entry for each of the
node's output ports and none for any other key. -/
def RegistersOutputs (f : Node → ModelTransformer → ModelTransformer) : Prop :=
  ∀ n t key, countKey (f n t).elementMap key =
    countKey t.elementMap key + (if key.1 = n.id ∧ key.2 < n.outputs.length then 1 else 0)

/-
Well-formedness of models: distinct identities and, for every node, every
input reference resolves to an output port of an earlier node with an
in-bounds, non-empty sub-range.
-/

/-- A port reference is resolved against a list of already-seen nodes: the
referenced node occurs there and the referenced sub-range is non-empty and
in bounds for the referenced output port. -/
abbrev RefOk (seen : List Node) (r : PortRange) : Prop :=
  ∃ p ∈ seen, p.id = r.nodeId ∧ r.portIndex < p.outputs.length ∧
    1 ≤ r.length ∧ r.start + r.length ≤ portSize p r.portIndex

/-- All input references of a node are resolved against `seen`. -/
abbrev RefsOkIn (seen : List Node) (n : Node) : Prop :=
  ∀ pe ∈ n.inputs, ∀ r ∈ pe, RefOk seen r

/-- Every node of the list resolves its inputs against `s` and the nodes
preceding it in the list (dependencies before dependents). -/
abbrev Chain (s : List Node) (l : List Node) : Prop :=
  ∀ i, (h : i < l.length) → RefsOkIn (s ++ l.take i) l[i]

/-- Modelled from the spec: a well-formed model: node identities are
distinct and every input reference resolves to an output port of a node
earlier in the list (no forward references, no dangling references, no
size mismatch). -/
abbrev Model.Wf (m : Model) : Prop :=
  (m.nodes.map (fun n => n.id)).Nodup ∧ Chain [] m.nodes

/-- Chain relative to a visit predicate: every visited node resolves its
inputs against the visited nodes preceding it. -/
def ChainV (visit : Nat → Bool) : List Node → List Node → Prop
  | _, [] => True
  | s, n :: rest =>
    (visit n.id = true → RefsOkIn s n) ∧
      ChainV visit (if visit n.id then s ++ [n] else s) rest

/-- Every node's direct dependencies lie among the already-seen identities. -/
def DepsChain : List Nat → List Node → Prop
  | _, [] => True
  | seen, n :: rest => (∀ d ∈ directDeps n, d ∈ seen) ∧ DepsChain (seen ++ [n.id]) rest

/-- Direct dependency relation between node identities of a model: `x`
directly depends on `y` when the node with identity `x` references an
output of the node with identity `y`. -/
def DependsOn (m : Model) (x y : Nat) : Prop :=
  ∃ n ∈ m.nodes, n.id = x ∧ y ∈ directDeps n

/-- A port-reference list is valid in a model: every range references an
existing output port in bounds (empty ranges allowed). -/
abbrev ElemsValidIn (m : Model) (v : PortElements) : Prop :=
  ∀ r ∈ v, ∃ p ∈ m.nodes, p.id = r.nodeId ∧ r.portIndex < p.outputs.length ∧
    r.start + r.length ≤ portSize p r.portIndex

/-- A mapping covers a source model into a target model: every output port
of every source node has an entry whose value is valid in the target model
and references exactly as many elements as the port holds. -/
def MapCovers (src : Model) (map : PortMap) (tgt : Model) : Prop :=
  ∀ n ∈ src.nodes, ∀ i, i < n.outputs.length →
    ∃ v, lookupMap map (n.id, i) = some v ∧ ElemsValidIn tgt v ∧ totalLen v = portSize n i

/-- A well-behaved accumulated mapping from a source model into the current
model: single registration per source output port, full coverage, and all
values valid in the current model. -/
def AccGood (src : Model) (map : PortMap) (cur : Model) : Prop :=
  (∀ n ∈ src.nodes, ∀ i, i < n.outputs.length → countKey map (n.id, i) = 1) ∧
    MapCovers src map cur ∧ (∀ e ∈ map, ElemsValidIn cur e.2)

/-
Canonical description of what a transformation pass produces: nodes are
re-emitted in visit order with fresh consecutive identities, and every
reference is renamed to the position of the producing node among the
visited nodes.
-/

/-- Index of the first node with the given identity in a node list. -/
def idxOfId (ns : List Node) (nid : Nat) : Nat :=
  ns.findIdx (fun p => p.id == nid)

/-- Rename one reference into the new model space: the producing node is
replaced by its position among the kept nodes. -/
def renameRange (ns : List Node) (r : PortRange) : PortRange :=
  ⟨idxOfId ns r.nodeId, r.portIndex, r.start, r.length⟩

/-- Rename a whole reference list. -/
def renameElems (ns : List Node) (elems : PortElements) : PortElements :=
  elems.map (renameRange ns)

/-- The node a transformation emits for source node `n` at position `j`:
fresh identity `j`, the emitted variant, renamed inputs, the same output
ports. -/
def transformedNode (ns : List Node) (emit : Node → NodeKind) (j : Nat) (n : Node) : Node :=
  ⟨j, emit n, n.inputs.map (renameElems ns), n.outputs⟩

/-- The canonical output node list of a transformation over `kept`, with
positions starting at `j`. -/
def canonAux (ns : List Node) (emit : Node → NodeKind) : Nat → List Node → List Node
  | _, [] => []
  | j, n :: rest => transformedNode ns emit j n :: canonAux ns emit (j + 1) rest

/-- The canonical old-to-new mapping of a transformation over `kept`, with
new identities starting at `j`. -/
def canonMapAux : Nat → List Node → PortMap
  | _, [] => []
  | j, n :: rest => portEntries n.id j 0 n.outputs ++ canonMapAux (j + 1) rest

/-
The two standard passes.
-/

/-- Find the node of a model with the given identity. -/
def findNodeById (m : Model) (nid : Nat) : Option Node :=
  m.nodes.find? (fun n => decide (n.id = nid))

/-- All port references appearing in the input ports of the model's nodes. -/
def allRefs (m : Model) : List PortRange :=
  (m.nodes.map (fun n => n.inputs.flatten)).flatten

/-- Number of references to any output of the node with identity `pid`. -/
def refsToCount (m : Model) (pid : Nat) : Nat :=
  (allRefs m).countP (fun r => decide (r.nodeId = pid))

/-- Modelled from the spec: algebraic composition of two affine nodes
applied in sequence: first (scale1, bias1), then (scale2, bias2).  The
fused node computes scale2 * (scale1 * x + bias1) + bias2. -/
def composeAffine : NodeKind → NodeKind → NodeKind
  | .affine scale1 bias1, .affine scale2 bias2 =>
    .affine (scale2 * scale1) (scale2 * bias1 + bias2)
  | _, k2 => k2

/-- Modelled from the spec: the fusible-chain pattern of the
linear-operation fusion pass: node `c` is an affine node whose entire
single input is the full single output of another affine node, and that
producer's output is consumed nowhere else.  Returns the producer. -/
def fusiblePartner (m : Model) (c : Node) : Option Node :=
  match c.kind, c.inputs with
  | NodeKind.affine _ _, [[r]] =>
    (match findNodeById m r.nodeId with
     | some p =>
       (match p.kind with
        | NodeKind.affine _ _ =>
          if p.id ≠ c.id ∧ r.portIndex = 0 ∧ r.start = 0 ∧ p.outputs.length = 1 ∧
              r.length = portSize p 0 ∧ refsToCount m p.id = 1
          then some p else none
        | _ => none)
     | none => none)
  | _, _ => none

/-- Modelled from the spec: find a fusible (producer, consumer) pair of
affine nodes. -/
def findFusible (m : Model) : Option (Node × Node) :=
  m.nodes.findSome? (fun c => (fusiblePartner m c).map (fun p => (p, c)))

/-- Modelled from the spec: rewrite one fusible chain link: the producer is
removed and the consumer is replaced by the algebraically composed affine
node, consuming the producer's inputs; all other nodes are copied
unchanged. -/
def contract (m : Model) (p c : Node) : Model :=
  ⟨m.nodes.filterMap (fun n =>
    if n.id = p.id then none
    else if n.id = c.id then some ⟨c.id, composeAffine p.kind c.kind, p.inputs, c.outputs⟩
    else some n)⟩

/-- Modelled from the spec: repeatedly rewrite fusible chain links until no
fusible pair remains or the rewrite budget is exhausted. -/
def fuseSaturate : Nat → Model → Model
  | 0, m => m
  | fuel + 1, m =>
    match findFusible m with
    | none => m
    | some (p, c) => fuseSaturate fuel (contract m p c)

/-- Modelled from the spec: the linear-operation fusion pass
(`FuseLinearOperationsPass.cpp` is not in the excerpt): pattern-matches
chains of affine nodes on the same data path and rewrites each chain into
a single algebraically composed affine node; nodes outside any fusible
chain are copied unchanged.  One rewrite per fusible link; each rewrite
strictly shrinks the model, so a budget of the node count saturates. -/
def FuseLinearOperationsPass (m : Model) : Model :=
  fuseSaturate m.nodes.length m

/-- Modelled from the spec: external target-configuration input consumed by
the convolution-method selection pass. -/
structure TargetConfiguration where
  preferredMethod : ConvolutionMethod
  supportsTransformDomain : Bool

/-- Modelled from the spec: choose the implementation strategy for a
convolution node from its declared shape and the target configuration. -/
def chooseConvolutionMethod (target : TargetConfiguration)
    (inputSize outputSize : Nat) : ConvolutionMethod :=
  match target.preferredMethod with
  | .automatic =>
    if target.supportsTransformDomain ∧ inputSize % 2 = 0 ∧ 0 < outputSize
    then .winograd else .simple
  | other => if target.supportsTransformDomain then other else .simple

/-- Modelled from the spec: rewrite one node for the convolution-method
selection pass: a convolution node is replaced by the variant specialized
for the chosen strategy, preserving identity, inputs and output ports;
every other node is left untouched. -/
def retargetNode (target : TargetConfiguration) (n : Node) : Node :=
  match n.kind with
  | NodeKind.conv _ inputSize outputSize =>
    ⟨n.id, NodeKind.conv (chooseConvolutionMethod target inputSize outputSize)
      inputSize outputSize, n.inputs, n.outputs⟩
  | _ => n

/-- Modelled from the spec: the convolution-method selection pass
(`SetConvolutionMethodPass.cpp` is not in the excerpt): a strictly
node-for-node substitution over the model. -/
def SetConvolutionMethodPass (target : TargetConfiguration) (m : Model) : Model :=
  ⟨m.nodes.map (retargetNode target)⟩

/-
Configuration struct for loading data, from `DataLoadArguments.h`.  The
C++ `double scale` field is modelled as a rational number.
-/

/-- A struct that holds command line parameters for loading data; from
`DataLoadArguments.h`, with the default member initializers of the source. -/
structure DataLoadArguments where
  inputDataFilename : String := ""
  dataDimension : String := ""
  parsedDataDimension : Nat := 0
  scale : Rat := 1

/-- Post-processing of a data value under the configured scale. -/
def applyScale (args : DataLoadArguments) (x : Rat) : Rat :=
  args.scale * x

/-
Concrete models used by the claims and witnesses.
-/

/-- The example context whose decision function always returns `refine`. -/
def alwaysRefineContext : TransformContext :=
  ⟨fun _ => NodeAction.refine⟩

/-- A one-node model whose node variant never changes itself under Refine. -/
def stubbornModel : Model :=
  ⟨[⟨0, NodeKind.stubborn 0, [], [(PortType.real, 1)]⟩]⟩

/-- A three-node chain: an input node feeding an affine node with
parameters (scale1, bias1), feeding an affine node with parameters
(scale2, bias2). -/
def affineChainModel (scale1 bias1 scale2 bias2 : Int) : Model :=
  ⟨[⟨0, NodeKind.input PortType.real 4, [], [(PortType.real, 4)]⟩,
    ⟨1, NodeKind.affine scale1 bias1, [[⟨0, 0, 0, 4⟩]], [(PortType.real, 4)]⟩,
    ⟨2, NodeKind.affine scale2 bias2, [[⟨1, 0, 0, 4⟩]], [(PortType.real, 4)]⟩]⟩

/-- The fused form of the chain: the input node feeding one affine node. -/
def affineFusedModel (scale bias : Int) : Model :=
  ⟨[⟨0, NodeKind.input PortType.real 4, [], [(PortType.real, 4)]⟩,
    ⟨2, NodeKind.affine scale bias, [[⟨0, 0, 0, 4⟩]], [(PortType.real, 4)]⟩]⟩

/-- A small well-formed model: an input node feeding an affine node,
followed by a lowerable node consuming part of the affine output. -/
def exampleModel : Model :=
  ⟨[⟨0, NodeKind.input PortType.real 4, [], [(PortType.real, 4)]⟩,
    ⟨1, NodeKind.affine 2 3, [[⟨0, 0, 0, 4⟩]], [(PortType.real, 4)]⟩,
    ⟨2, NodeKind.lowerable 2, [[⟨1, 0, 1, 2⟩]], [(PortType.real, 2)]⟩]⟩

/-- A protocol-abiding TransformModel callback: it maps every output port of
the visited node onto a same-shaped port, registering each exactly once. -/
def registeringCallback : Node → ModelTransformer → ModelTransformer :=
  fun n t => mapOutputsAux n.id n.id n.outputs 0 t

/-
Helper lemmas about the mapping association list.
-/

theorem countKey_append (a b : PortMap) (key : Nat × Nat) :
    countKey (a ++ b) key = countKey a key + countKey b key := by
  induction a with
  | nil => simp [countKey]
  | cons e rest ih =>
    obtain ⟨k, v⟩ := e
    show (if k = key then 1 else 0) + countKey (rest ++ b) key =
      (if k = key then 1 else 0) + countKey rest key + countKey b key
    rw [ih, Nat.add_assoc]

theorem lookupMap_append_some {a : PortMap} {key : Nat × Nat} {v : PortElements} (b : PortMap) :
    lookupMap a key = some v → lookupMap (a ++ b) key = some v := by
  induction a with
  | nil => intro h; simp [lookupMap] at h
  | cons e rest ih =>
    obtain ⟨k, w⟩ := e
    intro h
    have h2 : (if k = key then some w else lookupMap rest key) = some v := h
    show (if k = key then some w else lookupMap (rest ++ b) key) = some v
    by_cases hk : k = key
    · rw [if_pos hk] at h2 ⊢
      exact h2
    · rw [if_neg hk] at h2 ⊢
      exact ih h2

theorem lookupMap_append_none {a : PortMap} {key : Nat × Nat} (b : PortMap) :
    lookupMap a key = none → lookupMap (a ++ b) key = lookupMap b key := by
  induction a with
  | nil => intro _; rfl
  | cons e rest ih =>
    obtain ⟨k, w⟩ := e
    intro h
    have h2 : (if k = key then some w else lookupMap rest key) = none := h
    show (if k = key then some w else lookupMap (rest ++ b) key) = lookupMap b key
    by_cases hk : k = key
    · rw [if_pos hk] at h2
      exact absurd h2 (by simp)
    · rw [if_neg hk] at h2 ⊢
      exact ih h2

theorem lookupMap_isSome_of_countKey {map : PortMap} {key : Nat × Nat}
    (h : 1 ≤ countKey map key) : (lookupMap map key).isSome = true := by
  induction map with
  | nil => simp [countKey] at h
  | cons e rest ih =>
    obtain ⟨k, w⟩ := e
    simp only [countKey] at h
    simp only [lookupMap]
    split
    · rfl
    · next hne =>
      rw [if_neg hne] at h
      exact ih (by omega)

theorem lookupMap_eq_none {map : PortMap} {key : Nat × Nat}
    (h : countKey map key = 0) : lookupMap map key = none := by
  induction map with
  | nil => rfl
  | cons e rest ih =>
    obtain ⟨k, w⟩ := e
    simp only [countKey] at h
    simp only [lookupMap]
    split
    · next heq => rw [if_pos heq] at h; omega
    · next hne =>
      rw [if_neg hne] at h
      exact ih (by omega)

theorem portEntries_count (oldId newId : Nat) (outs : List (PortType × Nat)) :
    ∀ (i : Nat) (key : Nat × Nat),
      countKey (portEntries oldId newId i outs) key =
        if key.1 = oldId ∧ i ≤ key.2 ∧ key.2 < i + outs.length then 1 else 0 := by
  induction outs with
  | nil =>
    intro i key
    simp only [portEntries, countKey, List.length_nil]
    split
    · next h => omega
    · rfl
  | cons hd rest ih =>
    intro i key
    obtain ⟨ty, sz⟩ := hd
    obtain ⟨k1, k2⟩ := key
    simp only [portEntries, countKey, ih, List.length_cons, Prod.mk.injEq]
    split
    · next h1 =>
      split
      · next h2 => omega
      · next h2 =>
        split
        · rfl
        · next h3 => omega
    · next h1 =>
      split
      · next h2 =>
        split
        · rfl
        · next h3 => omega
      · next h2 =>
        split
        · next h3 => omega
        · rfl

theorem portEntries_lookup (oldId newId : Nat) (outs : List (PortType × Nat)) :
    ∀ (i j : Nat), j < outs.length →
      lookupMap (portEntries oldId newId i outs) (oldId, i + j) =
        some [⟨newId, i + j, 0, (outs.getD j dfltPort).2⟩] := by
  induction outs with
  | nil => intro i j h; simp at h
  | cons hd rest ih =>
    intro i j h
    obtain ⟨ty, sz⟩ := hd
    match j with
    | 0 => simp [portEntries, lookupMap]
    | j + 1 =>
      have hne : ¬((oldId, i) = (oldId, i + (j + 1))) := by
        intro hcontra
        have : i = i + (j + 1) := congrArg Prod.snd hcontra
        omega
      simp only [portEntries, lookupMap, if_neg hne]
      have := ih (i + 1) j (by simpa using h)
      have harith : i + 1 + j = i + (j + 1) := by omega
      rw [harith] at this
      simpa using this

theorem mem_portEntries {oldId newId : Nat} {outs : List (PortType × Nat)} :
    ∀ {i : Nat} {e : (Nat × Nat) × PortElements}, e ∈ portEntries oldId newId i outs →
      ∃ j, j < outs.length ∧
        e = ((oldId, i + j), [⟨newId, i + j, 0, (outs.getD j dfltPort).2⟩]) := by
  induction outs with
  | nil => intro i e h; simp [portEntries] at h
  | cons hd rest ih =>
    intro i e h
    obtain ⟨ty, sz⟩ := hd
    simp only [portEntries, List.mem_cons] at h
    rcases h with h | h
    · exact ⟨0, Nat.succ_pos _, by simpa using h⟩
    · obtain ⟨j, hj, he⟩ := ih h
      refine ⟨j + 1, by simpa using hj, ?_⟩
      have harith : i + 1 + j = i + (j + 1) := by omega
      rw [he, harith]
      rfl

theorem canonMapAux_append (y : Node) :
    ∀ (xs : List Node) (j0 : Nat),
      canonMapAux j0 (xs ++ [y]) =
        canonMapAux j0 xs ++ portEntries y.id (j0 + xs.length) 0 y.outputs := by
  intro xs
  induction xs with
  | nil => intro j0; simp [canonMapAux]
  | cons n rest ih =>
    intro j0
    show portEntries n.id j0 0 n.outputs ++ canonMapAux (j0 + 1) (rest ++ [y]) =
      (portEntries n.id j0 0 n.outputs ++ canonMapAux (j0 + 1) rest) ++
        portEntries y.id (j0 + (rest.length + 1)) 0 y.outputs
    rw [ih (j0 + 1), List.append_assoc]
    have harith : j0 + 1 + rest.length = j0 + (rest.length + 1) := by omega
    rw [harith]

theorem canonMap_count_zero {key : Nat × Nat} :
    ∀ (kept : List Node) (j0 : Nat), (∀ p ∈ kept, p.id ≠ key.1) →
      countKey (canonMapAux j0 kept) key = 0 := by
  intro kept
  induction kept with
  | nil => intro j0 _; rfl
  | cons n rest ih =>
    intro j0 h
    simp only [canonMapAux, countKey_append]
    rw [portEntries_count, if_neg, ih (j0 + 1) (fun p hp => h p (List.mem_cons_of_mem n hp))]
    rintro ⟨h1, -, -⟩
    exact h n (List.mem_cons_self n rest) h1.symm

theorem canonMap_lookup :
    ∀ (kept : List Node), (kept.map (fun n => n.id)).Nodup →
      ∀ (j0 j : Nat) (h : j < kept.length) (i : Nat),
        i < (kept.get ⟨j, h⟩).outputs.length →
        lookupMap (canonMapAux j0 kept) ((kept.get ⟨j, h⟩).id, i) =
          some [⟨j0 + j, i, 0, portSize (kept.get ⟨j, h⟩) i⟩] := by
  intro kept
  induction kept with
  | nil => intro _ j0 j h; simp at h
  | cons n rest ih =>
    intro hnd j0 j h i hi
    simp only [List.map_cons, List.nodup_cons] at hnd
    obtain ⟨hn, hndr⟩ := hnd
    match j with
    | 0 =>
      have hl := portEntries_lookup n.id j0 n.outputs 0 i hi
      rw [Nat.zero_add] at hl
      show lookupMap (portEntries n.id j0 0 n.outputs ++ canonMapAux (j0 + 1) rest) (n.id, i) =
        some [⟨j0 + 0, i, 0, portSize n i⟩]
      rw [Nat.add_zero]
      exact lookupMap_append_some _ hl
    | j + 1 =>
      have hj : j < rest.length := by
        simp only [List.length_cons] at h
        omega
      have hpmem : rest.get ⟨j, hj⟩ ∈ rest := List.get_mem rest j hj
      have hpid : (rest.get ⟨j, hj⟩).id ≠ n.id := by
        intro hcontra
        exact hn (hcontra ▸ List.mem_map_of_mem (fun q => q.id) hpmem)
      have hcnt : countKey (portEntries n.id j0 0 n.outputs) ((rest.get ⟨j, hj⟩).id, i) = 0 := by
        rw [portEntries_count, if_neg]
        rintro ⟨h1, -, -⟩
        exact hpid h1
      have hrec := ih hndr (j0 + 1) j hj i hi
      show lookupMap (portEntries n.id j0 0 n.outputs ++ canonMapAux (j0 + 1) rest)
          ((rest.get ⟨j, hj⟩).id, i) = some [⟨j0 + (j + 1), i, 0, portSize (rest.get ⟨j, hj⟩) i⟩]
      rw [lookupMap_append_none _ (lookupMap_eq_none hcnt), hrec]
      have harith : j0 + 1 + j = j0 + (j + 1) := by omega
      rw [harith]

theorem canonMap_count_one :
    ∀ (kept : List Node), (kept.map (fun n => n.id)).Nodup →
      ∀ (j0 : Nat) (p : Node), p ∈ kept → ∀ i, i < p.outputs.length →
        countKey (canonMapAux j0 kept) (p.id, i) = 1 := by
  intro kept
  induction kept with
  | nil => intro _ j0 p hp; simp at hp
  | cons n rest ih =>
    intro hnd j0 p hp i hi
    simp only [List.map_cons, List.nodup_cons] at hnd
    obtain ⟨hn, hndr⟩ := hnd
    show countKey (portEntries n.id j0 0 n.outputs ++ canonMapAux (j0 + 1) rest) (p.id, i) = 1
    rw [countKey_append]
    rcases List.mem_cons.mp hp with rfl | hp2
    · rw [portEntries_count, if_pos ⟨rfl, Nat.zero_le _, by simpa using hi⟩,
        canonMap_count_zero rest (j0 + 1)]
      intro q hq hcontra
      have hc2 : q.id = p.id := hcontra
      exact hn (hc2 ▸ List.mem_map_of_mem (fun x => x.id) hq)
    · have hpid : p.id ≠ n.id := by
        intro hcontra
        exact hn (hcontra ▸ List.mem_map_of_mem (fun x => x.id) hp2)
      rw [portEntries_count, if_neg, ih hndr (j0 + 1) p hp2 i hi]
      rintro ⟨h1, -, -⟩
      exact hpid h1

theorem mem_canonMapAux :
    ∀ (kept : List Node) (j0 : Nat) (e : (Nat × Nat) × PortElements), e ∈ canonMapAux j0 kept →
      ∃ j, ∃ (h : j < kept.length), ∃ i, i < (kept.get ⟨j, h⟩).outputs.length ∧
        e = (((kept.get ⟨j, h⟩).id, i), [⟨j0 + j, i, 0, portSize (kept.get ⟨j, h⟩) i⟩]) := by
  intro kept
  induction kept with
  | nil => intro j0 e h; simp [canonMapAux] at h
  | cons n rest ih =>
    intro j0 e he
    rcases List.mem_append.mp he with hh | hh
    · obtain ⟨i, hi, heq⟩ := mem_portEntries hh
      refine ⟨0, Nat.succ_pos _, i, ?_, ?_⟩
      · simpa [portSize] using hi
      · rw [heq]
        simp [portSize]
    · obtain ⟨j, hj, i, hi, heq⟩ := ih (j0 + 1) e hh
      refine ⟨j + 1, by simpa using hj, i, hi, ?_⟩
      rw [heq]
      have harith : j0 + 1 + j = j0 + (j + 1) := by omega
      rw [harith]
      rfl

theorem identityMapAux_count_zero {key : Nat × Nat} :
    ∀ (l : List Node), (∀ p ∈ l, p.id ≠ key.1) → countKey (identityMapAux l) key = 0 := by
  intro l
  induction l with
  | nil => intro _; rfl
  | cons n rest ih =>
    intro h
    show countKey (portEntries n.id n.id 0 n.outputs ++ identityMapAux rest) key = 0
    rw [countKey_append, portEntries_count, if_neg,
      ih (fun p hp => h p (List.mem_cons_of_mem n hp))]
    rintro ⟨h1, -, -⟩
    exact h n (List.mem_cons_self n rest) h1.symm

theorem identityMapAux_count_one :
    ∀ (l : List Node), (l.map (fun n => n.id)).Nodup →
      ∀ (p : Node), p ∈ l → ∀ i, i < p.outputs.length →
        countKey (identityMapAux l) (p.id, i) = 1 := by
  intro l
  induction l with
  | nil => intro _ p hp; simp at hp
  | cons n rest ih =>
    intro hnd p hp i hi
    simp only [List.map_cons, List.nodup_cons] at hnd
    obtain ⟨hn, hndr⟩ := hnd
    show countKey (portEntries n.id n.id 0 n.outputs ++ identityMapAux rest) (p.id, i) = 1
    rw [countKey_append]
    rcases List.mem_cons.mp hp with rfl | hp2
    · rw [portEntries_count, if_pos ⟨rfl, Nat.zero_le _, by simpa using hi⟩,
        identityMapAux_count_zero rest]
      intro q hq hcontra
      have hc2 : q.id = p.id := hcontra
      exact hn (hc2 ▸ List.mem_map_of_mem (fun x => x.id) hq)
    · have hpid : p.id ≠ n.id := by
        intro hcontra
        exact hn (hcontra ▸ List.mem_map_of_mem (fun x => x.id) hp2)
      rw [portEntries_count, if_neg, ih hndr p hp2 i hi]
      rintro ⟨h1, -, -⟩
      exact hpid h1

theorem identityMapAux_lookup :
    ∀ (l : List Node), (l.map (fun n => n.id)).Nodup →
      ∀ (p : Node), p ∈ l → ∀ i, i < p.outputs.length →
        lookupMap (identityMapAux l) (p.id, i) = some [⟨p.id, i, 0, portSize p i⟩] := by
  intro l
  induction l with
  | nil => intro _ p hp; simp at hp
  | cons n rest ih =>
    intro hnd p hp i hi
    simp only [List.map_cons, List.nodup_cons] at hnd
    obtain ⟨hn, hndr⟩ := hnd
    show lookupMap (portEntries n.id n.id 0 n.outputs ++ identityMapAux rest) (p.id, i) =
      some [⟨p.id, i, 0, portSize p i⟩]
    rcases List.mem_cons.mp hp with rfl | hp2
    · have hl := portEntries_lookup p.id p.id p.outputs 0 i hi
      rw [Nat.zero_add] at hl
      exact lookupMap_append_some _ hl
    · have hpid : p.id ≠ n.id := by
        intro hcontra
        exact hn (hcontra ▸ List.mem_map_of_mem (fun x => x.id) hp2)
      have hcnt : countKey (portEntries n.id n.id 0 n.outputs) (p.id, i) = 0 := by
        rw [portEntries_count, if_neg]
        rintro ⟨h1, -, -⟩
        exact hpid h1
      rw [lookupMap_append_none _ (lookupMap_eq_none hcnt)]
      exact ih hndr p hp2 i hi

theorem mem_identityMapAux :
    ∀ (l : List Node) (e : (Nat × Nat) × PortElements), e ∈ identityMapAux l →
      ∃ p ∈ l, ∃ i, i < p.outputs.length ∧ e = ((p.id, i), [⟨p.id, i, 0, portSize p i⟩]) := by
  intro l
  induction l with
  | nil => intro e h; simp [identityMapAux] at h
  | cons n rest ih =>
    intro e he
    rcases List.mem_append.mp he with hh | hh
    · obtain ⟨i, hi, heq⟩ := mem_portEntries hh
      exact ⟨n, List.mem_cons_self n rest, i, hi, by rw [heq]; simp [portSize]⟩
    · obtain ⟨p, hp, i, hi, heq⟩ := ih e hh
      exact ⟨p, List.mem_cons_of_mem n hp, i, hi, heq⟩

theorem totalLen_nil : totalLen [] = 0 := rfl

theorem totalLen_cons (r : PortRange) (v : PortElements) :
    totalLen (r :: v) = r.length + totalLen v := by
  simp [totalLen]

theorem totalLen_append (a b : PortElements) :
    totalLen (a ++ b) = totalLen a + totalLen b := by
  simp [totalLen]

theorem sliceElements_len_zero (w : PortElements) (s : Nat) :
    sliceElements w s 0 = some [] := by
  cases w <;> simp [sliceElements]

theorem sliceElements_single (a b s l sz : Nat) (h1 : 1 ≤ l) (h2 : s + l ≤ sz) :
    sliceElements [⟨a, b, 0, sz⟩] s l = some [⟨a, b, s, l⟩] := by
  obtain ⟨l2, rfl⟩ : ∃ l2, l = l2 + 1 := ⟨l - 1, by omega⟩
  have hlt : s < sz := by omega
  have hmin : min (sz - s) (l2 + 1) = l2 + 1 := by omega
  simp only [sliceElements]
  rw [if_pos hlt]
  simp only [hmin, Nat.sub_self, sliceElements_len_zero, Nat.zero_add]

theorem sliceElements_total :
    ∀ (w : PortElements) (s l : Nat), s + l ≤ totalLen w →
      ∃ u, sliceElements w s l = some u ∧ totalLen u = l ∧
        ∀ r2 ∈ u, ∃ r ∈ w, r2.nodeId = r.nodeId ∧ r2.portIndex = r.portIndex ∧
          r.start ≤ r2.start ∧ r2.start + r2.length ≤ r.start + r.length := by
  intro w
  induction w with
  | nil =>
    intro s l h
    have hl : l = 0 := by
      rw [totalLen_nil] at h
      omega
    subst hl
    exact ⟨[], sliceElements_len_zero _ _, rfl, by simp⟩
  | cons r rest ih =>
    intro s l h
    rw [totalLen_cons] at h
    match l with
    | 0 => exact ⟨[], sliceElements_len_zero _ _, rfl, by simp⟩
    | l + 1 =>
      by_cases hs : s < r.length
      · have hbound : 0 + (l + 1 - min (r.length - s) (l + 1)) ≤ totalLen rest := by omega
        obtain ⟨u2, hu2, hlen2, hmem2⟩ := ih 0 (l + 1 - min (r.length - s) (l + 1)) hbound
        refine ⟨⟨r.nodeId, r.portIndex, r.start + s, min (r.length - s) (l + 1)⟩ :: u2,
          ?_, ?_, ?_⟩
        · simp only [sliceElements]
          rw [if_pos hs]
          simp only [hu2]
        · rw [totalLen_cons, hlen2]
          show min (r.length - s) (l + 1) + (l + 1 - min (r.length - s) (l + 1)) = l + 1
          omega
        · intro r2 hr2
          rcases List.mem_cons.mp hr2 with rfl | hr2tail
          · refine ⟨r, List.mem_cons_self r rest, rfl, rfl, Nat.le_add_right _ _, ?_⟩
            show r.start + s + min (r.length - s) (l + 1) ≤ r.start + r.length
            omega
          · obtain ⟨rr, hrr, hprops⟩ := hmem2 r2 hr2tail
            exact ⟨rr, List.mem_cons_of_mem r hrr, hprops⟩
      · have hb2 : (s - r.length) + (l + 1) ≤ totalLen rest := by omega
        obtain ⟨u2, hu2, hlen2, hmem2⟩ := ih (s - r.length) (l + 1) hb2
        refine ⟨u2, ?_, hlen2, ?_⟩
        · simp only [sliceElements]
          rw [if_neg hs]
          exact hu2
        · intro r2 hr2
          obtain ⟨rr, hrr, hprops⟩ := hmem2 r2 hr2
          exact ⟨rr, List.mem_cons_of_mem r hrr, hprops⟩

theorem lookupCorresponding_total {src tgt : Model} {map : PortMap}
    (hcov : MapCovers src map tgt) :
    ∀ (v : PortElements), ElemsValidIn src v →
      ∃ out, lookupCorresponding map v = some out ∧ ElemsValidIn tgt out ∧
        totalLen out = totalLen v := by
  intro v
  induction v with
  | nil => intro _; exact ⟨[], rfl, fun r hr => absurd hr (List.not_mem_nil r), rfl⟩
  | cons r rest ih =>
    intro hv
    obtain ⟨p, hp, hpid, hpi, hbound⟩ := hv r (List.mem_cons_self r rest)
    obtain ⟨w, hw, hwvalid, hwlen⟩ := hcov p hp r.portIndex hpi
    rw [hpid] at hw
    obtain ⟨u, hu, hulen, humem⟩ :=
      sliceElements_total w r.start r.length (by rw [hwlen]; exact hbound)
    obtain ⟨tail, htail, htailvalid, htaillen⟩ :=
      ih (fun r2 h2 => hv r2 (List.mem_cons_of_mem r h2))
    refine ⟨u ++ tail, ?_, ?_, ?_⟩
    · simp only [lookupCorresponding, hw, hu, htail]
    · intro r2 h2
      rcases List.mem_append.mp h2 with h2 | h2
      · obtain ⟨rr, hrrw, hnid, hpidx, hst, hend⟩ := humem r2 h2
        obtain ⟨q, hq, hqid, hqpi, hqb⟩ := hwvalid rr hrrw
        refine ⟨q, hq, by rw [hnid, hqid], by rw [hpidx]; exact hqpi, ?_⟩
        rw [hpidx]
        omega
      · exact htailvalid r2 h2
    · rw [totalLen_append, hulen, htaillen, totalLen_cons]

@[simp] theorem transformedNode_id (ns : List Node) (emit : Node → NodeKind) (j : Nat) (n : Node) :
    (transformedNode ns emit j n).id = j := rfl

@[simp] theorem transformedNode_kind (ns : List Node) (emit : Node → NodeKind) (j : Nat)
    (n : Node) : (transformedNode ns emit j n).kind = emit n := rfl

@[simp] theorem transformedNode_outputs (ns : List Node) (emit : Node → NodeKind) (j : Nat)
    (n : Node) : (transformedNode ns emit j n).outputs = n.outputs := rfl

@[simp] theorem transformedNode_inputs (ns : List Node) (emit : Node → NodeKind) (j : Nat)
    (n : Node) : (transformedNode ns emit j n).inputs = n.inputs.map (renameElems ns) := rfl

theorem canonAux_length (ns : List Node) (emit : Node → NodeKind) :
    ∀ (kept : List Node) (j0 : Nat), (canonAux ns emit j0 kept).length = kept.length := by
  intro kept
  induction kept with
  | nil => intro j0; rfl
  | cons n rest ih => intro j0; simp [canonAux, ih]

theorem canonAux_get (ns : List Node) (emit : Node → NodeKind) :
    ∀ (kept : List Node) (j0 i : Nat) (h : i < kept.length)
      (h2 : i < (canonAux ns emit j0 kept).length),
      (canonAux ns emit j0 kept).get ⟨i, h2⟩ =
        transformedNode ns emit (j0 + i) (kept.get ⟨i, h⟩) := by
  intro kept
  induction kept with
  | nil => intro j0 i h; simp at h
  | cons n rest ih =>
    intro j0 i h h2
    match i with
    | 0 =>
      show transformedNode ns emit j0 n = transformedNode ns emit (j0 + 0) n
      rw [Nat.add_zero]
    | i + 1 =>
      have hi : i < rest.length := by
        simp only [List.length_cons] at h
        omega
      have hi2 : i < (canonAux ns emit (j0 + 1) rest).length := by
        rw [canonAux_length]
        exact hi
      show (canonAux ns emit (j0 + 1) rest).get ⟨i, hi2⟩ = _
      rw [ih (j0 + 1) i hi hi2]
      have harith : j0 + 1 + i = j0 + (i + 1) := by omega
      rw [harith]
      rfl

theorem canonAux_append (ns : List Node) (emit : Node → NodeKind) (y : Node) :
    ∀ (xs : List Node) (j0 : Nat),
      canonAux ns emit j0 (xs ++ [y]) =
        canonAux ns emit j0 xs ++ [transformedNode ns emit (j0 + xs.length) y] := by
  intro xs
  induction xs with
  | nil => intro j0; simp [canonAux]
  | cons n rest ih =>
    intro j0
    show transformedNode ns emit j0 n :: canonAux ns emit (j0 + 1) (rest ++ [y]) =
      (transformedNode ns emit j0 n :: canonAux ns emit (j0 + 1) rest) ++
        [transformedNode ns emit (j0 + (rest.length + 1)) y]
    rw [ih (j0 + 1)]
    have harith : j0 + 1 + rest.length = j0 + (rest.length + 1) := by omega
    rw [harith]
    rfl

theorem canonAux_ids (ns : List Node) (emit : Node → NodeKind) :
    ∀ (kept : List Node) (j0 : Nat),
      ((canonAux ns emit j0 kept).map (fun n => n.id)).Nodup ∧
        ∀ x ∈ (canonAux ns emit j0 kept).map (fun n => n.id), j0 ≤ x := by
  intro kept
  induction kept with
  | nil => intro j0; exact ⟨List.nodup_nil, by simp [canonAux]⟩
  | cons n rest ih =>
    intro j0
    obtain ⟨ihn, ihb⟩ := ih (j0 + 1)
    constructor
    · show (j0 :: (canonAux ns emit (j0 + 1) rest).map (fun n => n.id)).Nodup
      refine List.nodup_cons.mpr ⟨?_, ihn⟩
      intro hmem
      have := ihb j0 hmem
      omega
    · intro x hx
      have hx2 : x ∈ j0 :: (canonAux ns emit (j0 + 1) rest).map (fun n => n.id) := hx
      rcases List.mem_cons.mp hx2 with rfl | hx3
      · exact Nat.le_refl x
      · have := ihb x hx3
        omega

theorem findIdx_append_left {α : Type} {p : α → Bool} :
    ∀ (l1 l2 : List α), (∃ x ∈ l1, p x = true) →
      List.findIdx p (l1 ++ l2) = List.findIdx p l1 := by
  intro l1
  induction l1 with
  | nil => intro l2 h; simp at h
  | cons a rest ih =>
    intro l2 h
    by_cases hp : p a
    · simp [List.findIdx_cons, hp]
    · obtain ⟨x, hx, hpx⟩ := h
      rcases List.mem_cons.mp hx with rfl | hx2
      · exact absurd hpx hp
      · simp only [List.cons_append, List.findIdx_cons, Bool.cond_eq_if]
        rw [if_neg (by simpa using hp), if_neg (by simpa using hp), ih l2 ⟨x, hx2, hpx⟩]

theorem idxOfId_get :
    ∀ (l : List Node), (l.map (fun n => n.id)).Nodup →
      ∀ (j : Nat) (h : j < l.length), idxOfId l ((l.get ⟨j, h⟩).id) = j := by
  intro l
  induction l with
  | nil => intro _ j h; simp at h
  | cons n rest ih =>
    intro hnd j h
    simp only [List.map_cons, List.nodup_cons] at hnd
    obtain ⟨hn, hndr⟩ := hnd
    match j with
    | 0 =>
      show List.findIdx (fun p => p.id == n.id) (n :: rest) = 0
      simp [List.findIdx_cons]
    | j + 1 =>
      have hj : j < rest.length := by
        simp only [List.length_cons] at h
        omega
      have hne : (n.id == (rest.get ⟨j, hj⟩).id) = false := by
        rw [beq_eq_false_iff_ne]
        intro hcontra
        have hmem := List.mem_map_of_mem (fun x => x.id) (List.get_mem rest j hj)
        have hmem2 : (rest.get ⟨j, hj⟩).id ∈ List.map (fun x => x.id) rest := hmem
        rw [← hcontra] at hmem2
        exact hn hmem2
      show List.findIdx (fun p => p.id == (rest.get ⟨j, hj⟩).id) (n :: rest) = j + 1
      rw [List.findIdx_cons]
      simp only [hne, cond_false]
      have h2 : List.findIdx (fun p => p.id == (rest.get ⟨j, hj⟩).id) rest = j :=
        ih hndr j hj
      rw [h2]

theorem idxOfId_lt :
    ∀ (l : List Node) (nid : Nat), (∃ p ∈ l, p.id = nid) → idxOfId l nid < l.length := by
  intro l
  induction l with
  | nil => intro nid h; simp at h
  | cons n rest ih =>
    intro nid h
    by_cases hp : (n.id == nid) = true
    · show List.findIdx (fun p => p.id == nid) (n :: rest) < rest.length + 1
      rw [List.findIdx_cons]
      simp [hp]
    · obtain ⟨x, hx, hxid⟩ := h
      rcases List.mem_cons.mp hx with rfl | hx2
      · exact absurd (by simpa using hxid) hp
      · show List.findIdx (fun p => p.id == nid) (n :: rest) < rest.length + 1
        rw [List.findIdx_cons]
        simp only [hp, cond_false]
        have hlt := ih nid ⟨x, hx2, hxid⟩
        have hlt2 : List.findIdx (fun p => p.id == nid) rest < rest.length := hlt
        omega

theorem get_take_eq {α : Type} :
    ∀ (l : List α) (i j : Nat) (h : j < (l.take i).length) (h2 : j < l.length),
      (l.take i).get ⟨j, h⟩ = l.get ⟨j, h2⟩ := by
  intro l
  induction l with
  | nil => intro i j h _; simp at h
  | cons a rest ih =>
    intro i j h h2
    cases i with
    | zero => simp at h
    | succ i =>
      cases j with
      | zero => rfl
      | succ j =>
        have h3 : j < (rest.take i).length := by
          have he : ((a :: rest).take (i + 1)).length = (rest.take i).length + 1 := rfl
          omega
        have h4 : j < rest.length := by
          have he : ((a :: rest).length = rest.length + 1) := rfl
          omega
        show (rest.take i).get ⟨j, h3⟩ = rest.get ⟨j, h4⟩
        exact ih i j h3 h4

theorem mem_take_get {α : Type} (l : List α) (i : Nat) (p : α) (hp : p ∈ l.take i) :
    ∃ j, ∃ (h2 : j < l.length), j < i ∧ l.get ⟨j, h2⟩ = p := by
  obtain ⟨⟨j, hj⟩, hget⟩ := List.mem_iff_get.mp hp
  have hj2 : j < l.length := by
    have := hj
    rw [List.length_take] at this
    omega
  have hji : j < i := by
    have := hj
    rw [List.length_take] at this
    omega
  exact ⟨j, hj2, hji, by rw [← get_take_eq l i j hj hj2]; exact hget⟩

theorem get_mem_take {α : Type} (l : List α) (i j : Nat) (h : j < l.length) (hji : j < i) :
    l.get ⟨j, h⟩ ∈ l.take i := by
  have h3 : j < (l.take i).length := by
    rw [List.length_take]
    omega
  rw [← get_take_eq l i j h3 h]
  exact List.get_mem _ j h3

theorem chain_cons (s : List Node) (n : Node) (rest : List Node) :
    Chain s (n :: rest) ↔ RefsOkIn s n ∧ Chain (s ++ [n]) rest := by
  constructor
  · intro h
    constructor
    · have h0 := h 0 (Nat.succ_pos _)
      simpa using h0
    · intro i hi
      have h2 := h (i + 1) (by simpa using hi)
      have e2 : s ++ (n :: rest.take i) = (s ++ [n]) ++ rest.take i := by simp
      have e1 : (n :: rest).take (i + 1) = n :: rest.take i := rfl
      rw [e1, e2] at h2
      exact h2
  · rintro ⟨h1, h2⟩ i hi
    match i with
    | 0 => simpa using h1
    | i + 1 =>
      have hi2 : i < rest.length := by simpa using hi
      have h3 := h2 i hi2
      have e2 : (s ++ [n]) ++ rest.take i = s ++ (n :: rest.take i) := by simp
      rw [e2] at h3
      exact h3

theorem chainV_of_chain (visit : Nat → Bool) :
    ∀ (l s : List Node), Chain s l →
      (∀ n ∈ l, visit n.id = true → ∀ pe ∈ n.inputs, ∀ r ∈ pe, visit r.nodeId = true) →
      ChainV visit (s.filter (fun p => visit p.id)) l := by
  intro l
  induction l with
  | nil => intro s _ _; trivial
  | cons n rest ih =>
    intro s hch hcl
    rw [chain_cons] at hch
    obtain ⟨h1, h2⟩ := hch
    constructor
    · intro hv pe hpe r hr
      obtain ⟨p, hp, hpid, hpi, hl1, hl2⟩ := h1 pe hpe r hr
      refine ⟨p, ?_, hpid, hpi, hl1, hl2⟩
      rw [List.mem_filter]
      refine ⟨hp, ?_⟩
      have hv2 := hcl n (List.mem_cons_self n rest) hv pe hpe r hr
      rw [hpid]
      exact hv2
    · have hrec := ih (s ++ [n]) h2 (fun q hq => hcl q (List.mem_cons_of_mem n hq))
      rw [List.filter_append] at hrec
      by_cases hv : visit n.id
      · rw [if_pos hv]
        have e : [n].filter (fun p => visit p.id) = [n] := by simp [hv]
        rw [e] at hrec
        exact hrec
      · rw [if_neg hv]
        have e : [n].filter (fun p => visit p.id) = [] := by simp [hv]
        rw [e, List.append_nil] at hrec
        exact hrec

theorem depsChain_of_chain :
    ∀ (l s : List Node), Chain s l → DepsChain (s.map (fun n => n.id)) l := by
  intro l
  induction l with
  | nil => intro s _; trivial
  | cons n rest ih =>
    intro s hch
    rw [chain_cons] at hch
    obtain ⟨h1, h2⟩ := hch
    constructor
    · intro d hd
      obtain ⟨r, hr, hrd⟩ := List.mem_map.mp hd
      obtain ⟨pe, hpe, hrpe⟩ := List.mem_flatten.mp hr
      obtain ⟨p, hp, hpid, -, -, -⟩ := h1 pe hpe r hrpe
      rw [← hrd, ← hpid]
      exact List.mem_map_of_mem (fun x => x.id) hp
    · have hrec := ih (s ++ [n]) h2
      rw [List.map_append] at hrec
      exact hrec

theorem markAux_mono :
    ∀ (l : List Node) (acc : List Nat), ∀ x ∈ acc, x ∈ markAux l acc := by
  intro l
  induction l with
  | nil => intro acc x hx; exact hx
  | cons n rest ih =>
    intro acc x hx
    show x ∈ (if n.id ∈ markAux rest acc then markAux rest acc ++ directDeps n
      else markAux rest acc)
    by_cases h : n.id ∈ markAux rest acc
    · rw [if_pos h]
      exact List.mem_append_left _ (ih acc x hx)
    · rw [if_neg h]
      exact ih acc x hx

theorem markAux_sound {Reach : Nat → Prop} :
    ∀ (l : List Node) (acc : List Nat), (∀ a ∈ acc, Reach a) →
      (∀ n ∈ l, Reach n.id → ∀ d ∈ directDeps n, Reach d) →
      ∀ y ∈ markAux l acc, Reach y := by
  intro l
  induction l with
  | nil => intro acc hacc _ y hy; exact hacc y hy
  | cons n rest ih =>
    intro acc hacc hstep y hy
    have hrest := ih acc hacc (fun q hq => hstep q (List.mem_cons_of_mem n hq))
    by_cases h : n.id ∈ markAux rest acc
    · have heq : markAux (n :: rest) acc = markAux rest acc ++ directDeps n := by
        show (if n.id ∈ markAux rest acc then _ else _) = _
        rw [if_pos h]
      rw [heq] at hy
      rcases List.mem_append.mp hy with hy3 | hy3
      · exact hrest y hy3
      · exact hstep n (List.mem_cons_self n rest) (hrest n.id h) y hy3
    · have heq : markAux (n :: rest) acc = markAux rest acc := by
        show (if n.id ∈ markAux rest acc then _ else _) = _
        rw [if_neg h]
      rw [heq] at hy
      exact hrest y hy

theorem markAux_closed :
    ∀ (l : List Node) (seen : List Nat) (acc : List Nat),
      DepsChain seen l → (∀ n ∈ l, n.id ∉ seen) → (l.map (fun n => n.id)).Nodup →
      ∀ n ∈ l, n.id ∈ markAux l acc → ∀ d ∈ directDeps n, d ∈ markAux l acc := by
  intro l
  induction l with
  | nil => intro seen acc _ _ _ n hn; simp at hn
  | cons nh rest ih =>
    intro seen acc hdc hns hnd n hn hmem d hd
    obtain ⟨hdeps, hdc2⟩ := hdc
    simp only [List.map_cons, List.nodup_cons] at hnd
    obtain ⟨hh, hndr⟩ := hnd
    have hns2 : ∀ q ∈ rest, q.id ∉ seen ++ [nh.id] := by
      intro q hq hqmem
      rcases List.mem_append.mp hqmem with h4 | h4
      · exact hns q (List.mem_cons_of_mem nh hq) h4
      · have hc : q.id = nh.id := by simpa using h4
        exact hh (hc ▸ List.mem_map_of_mem (fun x => x.id) hq)
    by_cases hcase : nh.id ∈ markAux rest acc
    · have heq : markAux (nh :: rest) acc = markAux rest acc ++ directDeps nh := by
        show (if nh.id ∈ markAux rest acc then _ else _) = _
        rw [if_pos hcase]
      rw [heq] at hmem ⊢
      rcases List.mem_cons.mp hn with rfl | hn2
      · exact List.mem_append_right _ hd
      · have hnid : n.id ∈ markAux rest acc := by
          rcases List.mem_append.mp hmem with h3 | h3
          · exact h3
          · exact absurd (hdeps n.id h3) (hns n (List.mem_cons_of_mem nh hn2))
        have hrec := ih (seen ++ [nh.id]) acc hdc2 hns2 hndr n hn2 hnid d hd
        exact List.mem_append_left _ hrec
    · have heq : markAux (nh :: rest) acc = markAux rest acc := by
        show (if nh.id ∈ markAux rest acc then _ else _) = _
        rw [if_neg hcase]
      rw [heq] at hmem ⊢
      rcases List.mem_cons.mp hn with rfl | hn2
      · exact absurd hmem hcase
      · exact ih (seen ++ [nh.id]) acc hdc2 hns2 hndr n hn2 hmem d hd

theorem ancestorIds_iff (m : Model) (hwf : Model.Wf m) (targetId : Nat) (y : Nat) :
    Relation.ReflTransGen (DependsOn m) targetId y ↔ y ∈ ancestorIds m targetId := by
  constructor
  · intro h
    induction h with
    | refl => exact markAux_mono m.nodes [targetId] targetId (List.mem_cons_self _ _)
    | tail hxz hstep ihx =>
      obtain ⟨n, hn, hnid, hyd⟩ := hstep
      refine markAux_closed m.nodes [] [targetId]
        (by simpa using depsChain_of_chain m.nodes [] hwf.2)
        (by intro q _; simp) hwf.1 n hn ?_ _ hyd
      rw [hnid]
      exact ihx
  · intro h
    refine markAux_sound m.nodes [targetId] ?_ ?_ y h
    · intro a ha
      have haeq : a = targetId := by simpa using ha
      rw [haeq]
    · intro n hn hr d hd
      exact Relation.ReflTransGen.tail hr ⟨n, hn, rfl, hd⟩

theorem mapOutputsAux_spec (oldId newId : Nat) :
    ∀ (outs : List (PortType × Nat)) (i : Nat) (t : ModelTransformer),
      mapOutputsAux oldId newId outs i t =
        ⟨t.model, t.nextId, t.elementMap ++ portEntries oldId newId i outs,
          t.isModelCompilable⟩ := by
  intro outs
  induction outs with
  | nil =>
    intro i t
    show t = ⟨t.model, t.nextId, t.elementMap ++ [], t.isModelCompilable⟩
    rw [List.append_nil]
  | cons hd rest ih =>
    intro i t
    obtain ⟨ty, sz⟩ := hd
    show mapOutputsAux oldId newId rest (i + 1)
        (ModelTransformer.MapNodeOutput t (oldId, i) [⟨newId, i, 0, sz⟩]) = _
    rw [ih]
    show (⟨t.model, t.nextId,
        (t.elementMap ++ [((oldId, i), [⟨newId, i, 0, sz⟩])]) ++ portEntries oldId newId (i + 1) rest,
        t.isModelCompilable⟩ : ModelTransformer) = _
    rw [List.append_assoc]
    rfl

theorem optMapList_map {α β : Type} (l : List α) (f : α → Option β) (g : α → β)
    (h : ∀ a ∈ l, f a = some (g a)) : optMapList f l = some (l.map g) := by
  induction l with
  | nil => rfl
  | cons a rest ih =>
    show (match f a, optMapList f rest with
      | some b, some bs => some (b :: bs)
      | _, _ => none) = some (g a :: rest.map g)
    rw [h a (List.mem_cons_self a rest), ih (fun x hx => h x (List.mem_cons_of_mem a hx))]

theorem lookupCorresponding_canon (pre ext : List Node)
    (hnd : ((pre ++ ext).map (fun n => n.id)).Nodup) :
    ∀ (pe : PortElements), (∀ r ∈ pe, RefOk pre r) →
      lookupCorresponding (canonMapAux 0 pre) pe = some (renameElems (pre ++ ext) pe) := by
  have hndpre : (pre.map (fun n => n.id)).Nodup := by
    rw [List.map_append] at hnd
    exact hnd.of_append_left
  intro pe
  induction pe with
  | nil => intro _; rfl
  | cons r rest ih =>
    intro h
    obtain ⟨p, hp, hpid, hpi, hl1, hl2⟩ := h r (List.mem_cons_self r rest)
    obtain ⟨⟨j, hj⟩, hget⟩ := List.mem_iff_get.mp hp
    have hpi2 : r.portIndex < (pre.get ⟨j, hj⟩).outputs.length := by
      rw [hget]
      exact hpi
    have hlook := canonMap_lookup pre hndpre 0 j hj r.portIndex hpi2
    rw [hget, hpid, Nat.zero_add] at hlook
    have hslice := sliceElements_single j r.portIndex r.start r.length
      (portSize p r.portIndex) hl1 hl2
    have hidx : idxOfId (pre ++ ext) r.nodeId = j := by
      have hex : ∃ x ∈ pre, (fun q => q.id == r.nodeId) x = true :=
        ⟨p, hp, by simp [hpid]⟩
      have hfi := findIdx_append_left pre ext hex
      have h2 : idxOfId pre r.nodeId = j := by
        have h3 := idxOfId_get pre hndpre j hj
        rw [hget, hpid] at h3
        exact h3
      show List.findIdx (fun q => q.id == r.nodeId) (pre ++ ext) = j
      rw [hfi]
      exact h2
    have hrest := ih (fun r2 h2 => h r2 (List.mem_cons_of_mem r h2))
    show lookupCorresponding (canonMapAux 0 pre) (r :: rest) = _
    simp only [lookupCorresponding, hlook, hslice, hrest]
    show some ([⟨j, r.portIndex, r.start, r.length⟩] ++ renameElems (pre ++ ext) rest) = _
    simp only [renameElems, renameRange, List.map_cons, hidx]
    rfl

theorem transformFold_char (emit : Node → NodeKind) (visit : Nat → Bool) :
    ∀ (nodes pre : List Node) (t : ModelTransformer),
      ChainV visit pre nodes →
      ((pre ++ nodes.filter (fun q => visit q.id)).map (fun n => n.id)).Nodup →
      t.nextId = pre.length →
      t.model.nodes = canonAux (pre ++ nodes.filter (fun q => visit q.id)) emit 0 pre →
      t.elementMap = canonMapAux 0 pre →
      ∃ t2, transformFold emit visit nodes t = some t2 ∧
        t2.nextId = pre.length + (nodes.filter (fun q => visit q.id)).length ∧
        t2.model.nodes = canonAux (pre ++ nodes.filter (fun q => visit q.id)) emit 0
          (pre ++ nodes.filter (fun q => visit q.id)) ∧
        t2.elementMap = canonMapAux 0 (pre ++ nodes.filter (fun q => visit q.id)) ∧
        t2.isModelCompilable = t.isModelCompilable := by
  intro nodes
  induction nodes with
  | nil =>
    intro pre t _ hnd hnext hmodel hmap
    refine ⟨t, rfl, by simpa using hnext, by simpa using hmodel, by simpa using hmap, rfl⟩
  | cons n rest ih =>
    intro pre t hch hnd hnext hmodel hmap
    obtain ⟨hch1, hch2⟩ := hch
    by_cases hv : visit n.id
    · have hfil : List.filter (fun q => visit q.id) (n :: rest) =
          n :: List.filter (fun q => visit q.id) rest := by
        simp [hv]
      have hKeq2 : pre ++ (n :: List.filter (fun q => visit q.id) rest) =
          (pre ++ [n]) ++ List.filter (fun q => visit q.id) rest := by
        simp
      rw [hfil] at hnd hmodel
      have hrefs : ∀ pe ∈ n.inputs, ∀ r ∈ pe, RefOk pre r := hch1 hv
      have htrans : ∀ pe ∈ n.inputs,
          ModelTransformer.TransformPortElements t pe =
            some (renameElems (pre ++ (n :: List.filter (fun q => visit q.id) rest)) pe) := by
        intro pe hpe
        show lookupCorresponding t.elementMap pe = _
        rw [hmap]
        exact lookupCorresponding_canon pre (n :: List.filter (fun q => visit q.id) rest) hnd pe
          (hrefs pe hpe)
      have hopt : optMapList (ModelTransformer.TransformPortElements t) n.inputs =
          some (n.inputs.map
            (renameElems (pre ++ (n :: List.filter (fun q => visit q.id) rest)))) :=
        optMapList_map n.inputs _ _ htrans
      have hstep : transformNode emit t n = some (mapOutputsAux n.id t.nextId n.outputs 0
          ⟨⟨t.model.nodes ++ [⟨t.nextId, emit n, n.inputs.map
              (renameElems (pre ++ (n :: List.filter (fun q => visit q.id) rest))), n.outputs⟩]⟩,
            t.nextId + 1, t.elementMap, t.isModelCompilable⟩) := by
        simp only [transformNode, hopt]
        rfl
      rw [mapOutputsAux_spec] at hstep
      have hfold : transformFold emit visit (n :: rest) t =
          transformFold emit visit rest
            ⟨⟨t.model.nodes ++ [⟨t.nextId, emit n, n.inputs.map
                (renameElems (pre ++ (n :: List.filter (fun q => visit q.id) rest))), n.outputs⟩]⟩,
              t.nextId + 1, t.elementMap ++ portEntries n.id t.nextId 0 n.outputs,
              t.isModelCompilable⟩ := by
        show (if visit n.id then
            match transformNode emit t n with
            | none => none
            | some t2 => transformFold emit visit rest t2
          else transformFold emit visit rest t) = _
        rw [if_pos hv, hstep]
      have hmodel2 : (⟨t.model.nodes ++ [⟨t.nextId, emit n, n.inputs.map
          (renameElems (pre ++ (n :: List.filter (fun q => visit q.id) rest))), n.outputs⟩]⟩
            : Model).nodes =
          canonAux (pre ++ (n :: List.filter (fun q => visit q.id) rest)) emit 0
            (pre ++ [n]) := by
        show t.model.nodes ++ _ = _
        rw [hmodel, canonAux_append, Nat.zero_add, hnext]
        rfl
      have hmap2 : (t.elementMap ++ portEntries n.id t.nextId 0 n.outputs) =
          canonMapAux 0 (pre ++ [n]) := by
        rw [hmap, hnext, canonMapAux_append, Nat.zero_add]
      rw [if_pos hv] at hch2
      rw [hKeq2] at hnd hmodel2 hfold
      obtain ⟨t2, hft2, hn2, hm2, hel2, hc2⟩ := ih (pre ++ [n])
        ⟨⟨t.model.nodes ++ [⟨t.nextId, emit n, n.inputs.map
            (renameElems ((pre ++ [n]) ++ List.filter (fun q => visit q.id) rest)), n.outputs⟩]⟩,
          t.nextId + 1, t.elementMap ++ portEntries n.id t.nextId 0 n.outputs,
          t.isModelCompilable⟩
        hch2 hnd (by show t.nextId + 1 = _; rw [hnext]; simp) hmodel2 hmap2
      refine ⟨t2, ?_, ?_, ?_, ?_, hc2⟩
      · rw [hfold]
        exact hft2
      · rw [hfil, hn2]
        simp only [List.length_append, List.length_cons, List.length_nil]
        omega
      · rw [hfil, hKeq2]
        exact hm2
      · rw [hfil, hKeq2]
        exact hel2
    · have hfil : List.filter (fun q => visit q.id) (n :: rest) =
          List.filter (fun q => visit q.id) rest := by
        simp [hv]
      rw [if_neg hv] at hch2
      have hfold : transformFold emit visit (n :: rest) t =
          transformFold emit visit rest t := by
        show (if visit n.id then
            match transformNode emit t n with
            | none => none
            | some t2 => transformFold emit visit rest t2
          else transformFold emit visit rest t) = _
        rw [if_neg hv]
      obtain ⟨t2, hft2, hn2, hm2, hel2, hc2⟩ := ih pre t hch2
        (by rw [hfil] at hnd; exact hnd) hnext (by rw [hfil] at hmodel; exact hmodel) hmap
      refine ⟨t2, ?_, ?_, ?_, ?_, hc2⟩
      · rw [hfold]
        exact hft2
      · rw [hfil]
        exact hn2
      · rw [hfil]
        exact hm2
      · rw [hfil]
        exact hel2

theorem copy_char (emit : Node → NodeKind) (m : Model) (hwf : Model.Wf m) :
    ∃ t2, transformFold emit (fun _ => true) m.nodes initialTransformer = some t2 ∧
      t2.nextId = m.nodes.length ∧
      t2.model = ⟨canonAux m.nodes emit 0 m.nodes⟩ ∧
      t2.elementMap = canonMapAux 0 m.nodes ∧
      t2.isModelCompilable = true := by
  have hch : ChainV (fun _ => true) [] m.nodes := by
    have hc := chainV_of_chain (fun _ => true) m.nodes [] hwf.2
      (by intro n _ _ pe _ r _; rfl)
    simpa using hc
  have hfil : m.nodes.filter (fun q => true) = m.nodes := by simp
  obtain ⟨t2, h1, h2, h3, h4, h5⟩ := transformFold_char emit (fun _ => true) m.nodes []
    initialTransformer hch (by simpa [hfil] using hwf.1) rfl
    (by simp [hfil, canonAux, initialTransformer]) rfl
  rw [List.nil_append, hfil] at h3 h4
  refine ⟨t2, h1, by simpa [hfil] using h2, ?_, h4, h5⟩
  have heta : t2.model = ⟨t2.model.nodes⟩ := rfl
  rw [heta, h3]

theorem canonAux_wf (emit : Node → NodeKind) (m : Model) (hwf : Model.Wf m) :
    Model.Wf ⟨canonAux m.nodes emit 0 m.nodes⟩ := by
  constructor
  · exact (canonAux_ids m.nodes emit m.nodes 0).1
  · intro i hi pe2 hpe2 r2 hr2
    have hi2 : i < m.nodes.length := by
      have hlen := canonAux_length m.nodes emit m.nodes 0
      have hle : i < (canonAux m.nodes emit 0 m.nodes).length := hi
      omega
    have hnode : (canonAux m.nodes emit 0 m.nodes).get ⟨i, hi⟩ =
        transformedNode m.nodes emit i (m.nodes.get ⟨i, hi2⟩) := by
      have hg := canonAux_get m.nodes emit m.nodes 0 i hi2 hi
      rwa [Nat.zero_add] at hg
    have hpe3 : pe2 ∈ (transformedNode m.nodes emit i (m.nodes.get ⟨i, hi2⟩)).inputs := by
      rw [← hnode]
      exact hpe2
    rw [transformedNode_inputs] at hpe3
    obtain ⟨pe, hpe, rfl⟩ := List.mem_map.mp hpe3
    obtain ⟨r, hr, rfl⟩ := List.mem_map.mp hr2
    have horig := hwf.2 i hi2 pe hpe r hr
    rw [List.nil_append] at horig
    obtain ⟨p, hp, hpid, hpi, hl1, hl2⟩ := horig
    obtain ⟨j, hj2, hji, hjget⟩ := mem_take_get m.nodes i p hp
    have hjc : j < (canonAux m.nodes emit 0 m.nodes).length := by
      rw [canonAux_length]
      exact hj2
    have hqdef : (canonAux m.nodes emit 0 m.nodes).get ⟨j, hjc⟩ =
        transformedNode m.nodes emit j (m.nodes.get ⟨j, hj2⟩) := by
      have hg := canonAux_get m.nodes emit m.nodes 0 j hj2 hjc
      rwa [Nat.zero_add] at hg
    refine ⟨(canonAux m.nodes emit 0 m.nodes).get ⟨j, hjc⟩, ?_, ?_, ?_, hl1, ?_⟩
    · have hmt := get_mem_take (canonAux m.nodes emit 0 m.nodes) i j hjc hji
      simpa using hmt
    · rw [hqdef]
      show j = idxOfId m.nodes r.nodeId
      rw [← hpid]
      have hidx := idxOfId_get m.nodes hwf.1 j hj2
      rw [hjget] at hidx
      exact hidx.symm
    · rw [hqdef]
      show r.portIndex < (m.nodes.get ⟨j, hj2⟩).outputs.length
      rw [hjget]
      exact hpi
    · rw [hqdef]
      show r.start + r.length ≤
        portSize (transformedNode m.nodes emit j (m.nodes.get ⟨j, hj2⟩)) r.portIndex
      have hps : portSize (transformedNode m.nodes emit j (m.nodes.get ⟨j, hj2⟩)) r.portIndex =
          portSize p r.portIndex := by
        show ((m.nodes.get ⟨j, hj2⟩).outputs.getD r.portIndex dfltPort).2 = _
        rw [hjget]
        rfl
      rw [hps]
      exact hl2

theorem canonMap_covers (emit : Node → NodeKind) (m : Model) (hwf : Model.Wf m) :
    MapCovers m (canonMapAux 0 m.nodes) ⟨canonAux m.nodes emit 0 m.nodes⟩ := by
  intro n hn i hi
  obtain ⟨⟨j, hj⟩, hget⟩ := List.mem_iff_get.mp hn
  have hil : i < (m.nodes.get ⟨j, hj⟩).outputs.length := by
    rw [hget]
    exact hi
  have hlook := canonMap_lookup m.nodes hwf.1 0 j hj i hil
  rw [hget, Nat.zero_add] at hlook
  refine ⟨[⟨j, i, 0, portSize n i⟩], hlook, ?_, ?_⟩
  · intro r hr
    have hreq : r = ⟨j, i, 0, portSize n i⟩ := by simpa using hr
    subst hreq
    have hjc : j < (canonAux m.nodes emit 0 m.nodes).length := by
      rw [canonAux_length]
      exact hj
    have hqdef : (canonAux m.nodes emit 0 m.nodes).get ⟨j, hjc⟩ =
        transformedNode m.nodes emit j (m.nodes.get ⟨j, hj⟩) := by
      have hg := canonAux_get m.nodes emit m.nodes 0 j hj hjc
      rwa [Nat.zero_add] at hg
    refine ⟨(canonAux m.nodes emit 0 m.nodes).get ⟨j, hjc⟩, List.get_mem _ j hjc, ?_, ?_, ?_⟩
    · rw [hqdef]
      rfl
    · rw [hqdef]
      show i < (m.nodes.get ⟨j, hj⟩).outputs.length
      exact hil
    · rw [hqdef]
      show 0 + portSize n i ≤
        portSize (transformedNode m.nodes emit j (m.nodes.get ⟨j, hj⟩)) i
      have hps : portSize (transformedNode m.nodes emit j (m.nodes.get ⟨j, hj⟩)) i =
          portSize n i := by
        show ((m.nodes.get ⟨j, hj⟩).outputs.getD i dfltPort).2 = _
        rw [hget]
        rfl
      rw [hps]
      omega
  · simp [totalLen]

theorem canon_accGood (emit : Node → NodeKind) (m : Model) (hwf : Model.Wf m) :
    AccGood m (canonMapAux 0 m.nodes) ⟨canonAux m.nodes emit 0 m.nodes⟩ := by
  refine ⟨?_, canonMap_covers emit m hwf, ?_⟩
  · intro n hn i hi
    exact canonMap_count_one m.nodes hwf.1 0 n hn i hi
  · intro e he
    obtain ⟨j, hj, i, hi, heq⟩ := mem_canonMapAux m.nodes 0 e he
    rw [heq]
    intro r hr
    have hreq : r = ⟨0 + j, i, 0, portSize (m.nodes.get ⟨j, hj⟩) i⟩ := by simpa using hr
    subst hreq
    have hjc : j < (canonAux m.nodes emit 0 m.nodes).length := by
      rw [canonAux_length]
      exact hj
    have hqdef : (canonAux m.nodes emit 0 m.nodes).get ⟨j, hjc⟩ =
        transformedNode m.nodes emit j (m.nodes.get ⟨j, hj⟩) := by
      have hg := canonAux_get m.nodes emit m.nodes 0 j hj hjc
      rwa [Nat.zero_add] at hg
    refine ⟨(canonAux m.nodes emit 0 m.nodes).get ⟨j, hjc⟩, List.get_mem _ j hjc, ?_, ?_, ?_⟩
    · rw [hqdef]
      show j = 0 + j
      omega
    · rw [hqdef]
      exact hi
    · rw [hqdef]
      show 0 + portSize (m.nodes.get ⟨j, hj⟩) i ≤
        portSize (transformedNode m.nodes emit j (m.nodes.get ⟨j, hj⟩)) i
      have hps : portSize (transformedNode m.nodes emit j (m.nodes.get ⟨j, hj⟩)) i =
          portSize (m.nodes.get ⟨j, hj⟩) i := rfl
      rw [hps]
      omega

theorem identity_accGood (m : Model) (hwf : Model.Wf m) :
    AccGood m (identityMap m) m := by
  refine ⟨?_, ?_, ?_⟩
  · intro n hn i hi
    exact identityMapAux_count_one m.nodes hwf.1 n hn i hi
  · intro n hn i hi
    refine ⟨[⟨n.id, i, 0, portSize n i⟩],
      identityMapAux_lookup m.nodes hwf.1 n hn i hi, ?_, ?_⟩
    · intro r hr
      have hreq : r = ⟨n.id, i, 0, portSize n i⟩ := by simpa using hr
      subst hreq
      exact ⟨n, hn, rfl, hi, by show 0 + portSize n i ≤ portSize n i; omega⟩
    · simp [totalLen]
  · intro e he
    obtain ⟨p, hp, i, hi, heq⟩ := mem_identityMapAux m.nodes e he
    rw [heq]
    intro r hr
    have hreq : r = ⟨p.id, i, 0, portSize p i⟩ := by simpa using hr
    subst hreq
    exact ⟨p, hp, rfl, hi, by show 0 + portSize p i ≤ portSize p i; omega⟩

theorem composeMap_good (mid mNew : Model) (t : ModelTransformer)
    (hcovt : MapCovers mid t.elementMap mNew) :
    ∀ (acc : PortMap), (∀ e ∈ acc, ElemsValidIn mid e.2) →
      ∃ acc2, composeMap acc t = some acc2 ∧
        (∀ key, countKey acc2 key = countKey acc key) ∧
        (∀ key v, lookupMap acc key = some v →
          ∃ w, lookupMap acc2 key = some w ∧ ElemsValidIn mNew w ∧ totalLen w = totalLen v) ∧
        (∀ e2 ∈ acc2, ElemsValidIn mNew e2.2) := by
  intro acc
  induction acc with
  | nil =>
    intro _
    refine ⟨[], rfl, fun key => rfl, ?_, by simp⟩
    intro key v h
    simp [lookupMap] at h
  | cons e rest ih =>
    intro hvals
    obtain ⟨w, hw, hwvalid, hwlen⟩ := lookupCorresponding_total hcovt e.2
      (hvals e (List.mem_cons_self e rest))
    obtain ⟨acc2, hacc2, hcnt, hlook, hvalid2⟩ := ih (fun x hx => hvals x (List.mem_cons_of_mem e hx))
    have hw2 : ModelTransformer.TransformPortElements t e.2 = some w := hw
    have hacc2b : optMapList
        (fun e => (ModelTransformer.TransformPortElements t e.2).map (fun v => (e.1, v)))
        rest = some acc2 := hacc2
    refine ⟨(e.1, w) :: acc2, ?_, ?_, ?_, ?_⟩
    · show optMapList
          (fun e => (ModelTransformer.TransformPortElements t e.2).map (fun v => (e.1, v)))
          (e :: rest) = some ((e.1, w) :: acc2)
      simp only [optMapList, hw2, hacc2b]
      rfl
    · intro key
      show (if e.1 = key then 1 else 0) + countKey acc2 key =
        (if e.1 = key then 1 else 0) + countKey rest key
      rw [hcnt key]
    · intro key v hl
      have hl2 : (if e.1 = key then some e.2 else lookupMap rest key) = some v := hl
      by_cases hk : e.1 = key
      · rw [if_pos hk] at hl2
        have hev : e.2 = v := by injection hl2
        refine ⟨w, ?_, hwvalid, by rw [hwlen, hev]⟩
        show (if e.1 = key then some w else lookupMap acc2 key) = some w
        rw [if_pos hk]
      · rw [if_neg hk] at hl2
        obtain ⟨w2, hw2l, hw2v, hw2len⟩ := hlook key v hl2
        refine ⟨w2, ?_, hw2v, hw2len⟩
        show (if e.1 = key then some w else lookupMap acc2 key) = some w2
        rw [if_neg hk]
        exact hw2l
    · intro e2 he2
      rcases List.mem_cons.mp he2 with rfl | he2r
      · exact hwvalid
      · exact hvalid2 e2 he2r

theorem accGood_compose {m0 mid mNew : Model} {acc : PortMap} {t : ModelTransformer}
    (hacc : AccGood m0 acc mid) (hcovt : MapCovers mid t.elementMap mNew) :
    ∃ acc2, composeMap acc t = some acc2 ∧ AccGood m0 acc2 mNew := by
  obtain ⟨hcnt1, hcov1, hval1⟩ := hacc
  obtain ⟨acc2, hc, hcnt, hlook, hval2⟩ := composeMap_good mid mNew t hcovt acc hval1
  refine ⟨acc2, hc, ?_, ?_, hval2⟩
  · intro n hn i hi
    rw [hcnt]
    exact hcnt1 n hn i hi
  · intro n hn i hi
    obtain ⟨v, hv, hvv, hvl⟩ := hcov1 n hn i hi
    obtain ⟨w, hwl, hwv, hwlen⟩ := hlook (n.id, i) v hv
    exact ⟨w, hwl, hwv, by rw [hwlen, hvl]⟩

theorem refineLoop_spec (ctx : TransformContext) (m0 : Model) :
    ∀ (fuel : Nat) (m : Model) (acc : PortMap), Model.Wf m → AccGood m0 acc m →
      ∃ r j a, refineLoop ctx fuel m acc = some (r, j, a) ∧ Model.Wf r ∧ AccGood m0 a r ∧
        j ≤ fuel ∧
        (j < fuel → (r.nodes.any (didRefine ctx) = false ∨
          r.nodes.all ctx.IsNodeCompilable = true)) := by
  intro fuel
  induction fuel with
  | zero =>
    intro m acc hwf hacc
    exact ⟨m, 0, acc, rfl, hwf, hacc, Nat.le_refl 0, by omega⟩
  | succ fuel ih =>
    intro m acc hwf hacc
    by_cases hchg : m.nodes.any (didRefine ctx) = true
    · obtain ⟨t, hft, hnext, hmdl, hmap, hflag⟩ := copy_char (refineEmit ctx) m hwf
      have hwfnew : Model.Wf t.model := by
        rw [hmdl]
        exact canonAux_wf (refineEmit ctx) m hwf
      have hcovt : MapCovers m t.elementMap t.model := by
        rw [hmap, hmdl]
        exact canonMap_covers (refineEmit ctx) m hwf
      obtain ⟨acc2, hcomp, hacc2⟩ := accGood_compose hacc hcovt
      by_cases hcomp2 : t.model.nodes.all ctx.IsNodeCompilable = true
      · refine ⟨t.model, 1, acc2, ?_, hwfnew, hacc2, by omega, fun _ => Or.inr hcomp2⟩
        simp only [refineLoop, hchg, if_true, hft, hcomp, hcomp2]
      · obtain ⟨r, j, a, hloop, hwfr, haccr, hj, hearly⟩ := ih t.model acc2 hwfnew hacc2
        refine ⟨r, j + 1, a, ?_, hwfr, haccr, by omega, fun hjj => hearly (by omega)⟩
        simp only [refineLoop, hchg, if_true, hft, hcomp]
        rw [if_neg hcomp2, hloop]
    · have hchgf : m.nodes.any (didRefine ctx) = false := by
        cases h : m.nodes.any (didRefine ctx)
        · rfl
        · exact absurd h hchg
      refine ⟨m, 1, acc, ?_, hwf, hacc, by omega, fun _ => Or.inl hchgf⟩
      simp only [refineLoop, hchgf]
      simp

theorem refineModel_spec (m : Model) (ctx : TransformContext) (k : Nat) (hwf : Model.Wf m) :
    ∃ res, ModelTransformer.RefineModel m ctx k = some res ∧
      Model.Wf res.model ∧ AccGood m res.elementMap res.model ∧
      res.iterations ≤ k ∧
      (res.iterations < k → (res.model.nodes.any (didRefine ctx) = false ∨
        res.model.nodes.all ctx.IsNodeCompilable = true)) ∧
      res.isModelCompilable = res.model.nodes.all ctx.IsNodeCompilable := by
  obtain ⟨r, j, a, hloop, hwfr, haccr, hj, hearly⟩ :=
    refineLoop_spec ctx m k m (identityMap m) hwf (identity_accGood m hwf)
  refine ⟨⟨r, j, r.nodes.all ctx.IsNodeCompilable, a⟩, ?_, hwfr, haccr, hj, hearly, rfl⟩
  show (match refineLoop ctx k m (identityMap m) with
    | none => none
    | some (r, j, a) => some (⟨r, j, r.nodes.all ctx.IsNodeCompilable, a⟩ : RefineResult)) = _
  rw [hloop]

theorem countP_id_unique :
    ∀ (l : List Node), (l.map (fun q => q.id)).Nodup →
      ∀ (n : Node), n ∈ l → ∀ i, i < n.outputs.length →
        l.countP (fun p => decide (n.id = p.id ∧ i < p.outputs.length)) = 1 := by
  intro l
  induction l with
  | nil => intro _ n hn; simp at hn
  | cons hd rest ih =>
    intro hnd n hn i hi
    simp only [List.map_cons, List.nodup_cons] at hnd
    obtain ⟨hh, hndr⟩ := hnd
    rw [List.countP_cons]
    rcases List.mem_cons.mp hn with rfl | hn2
    · have hz : rest.countP (fun p => decide (n.id = p.id ∧ i < p.outputs.length)) = 0 := by
        rw [List.countP_eq_zero]
        intro p hp hcontra
        rw [decide_eq_true_eq] at hcontra
        exact hh (hcontra.1 ▸ List.mem_map_of_mem (fun x => x.id) hp)
      rw [hz]
      simp [hi]
    · have hne : n.id ≠ hd.id := by
        intro hcontra
        exact hh (hcontra ▸ List.mem_map_of_mem (fun x => x.id) hn2)
      have hz : (decide (n.id = hd.id ∧ i < hd.outputs.length)) = false := by
        simp [hne]
      rw [hz, ih hndr n hn2 i hi]
      simp

theorem transformModel_countKey (f : Node → ModelTransformer → ModelTransformer)
    (hreg : RegistersOutputs f) :
    ∀ (l : List Node) (t : ModelTransformer) (key : Nat × Nat),
      countKey (l.foldl (fun t n => f n t) t).elementMap key =
        countKey t.elementMap key +
          l.countP (fun p => decide (key.1 = p.id ∧ key.2 < p.outputs.length)) := by
  intro l
  induction l with
  | nil => intro t key; simp
  | cons n rest ih =>
    intro t key
    show countKey (rest.foldl (fun t n => f n t) (f n t)).elementMap key = _
    rw [ih (f n t) key, hreg n t key, List.countP_cons]
    by_cases hc : key.1 = n.id ∧ key.2 < n.outputs.length
    · rw [if_pos hc]
      have hd : (decide (key.1 = n.id ∧ key.2 < n.outputs.length)) = true := by
        simp [hc]
      rw [hd]
      simp
      omega
    · rw [if_neg hc]
      have hd : (decide (key.1 = n.id ∧ key.2 < n.outputs.length)) = false := by
        simpa using hc
      rw [hd]
      simp

theorem transformModel_total (m : Model) (f : Node → ModelTransformer → ModelTransformer)
    (ctx : TransformContext) (hreg : RegistersOutputs f)
    (hnd : (m.nodes.map (fun n => n.id)).Nodup) :
    ∀ n ∈ m.nodes, ∀ i, i < n.outputs.length →
      countKey (ModelTransformer.TransformModel m f ctx).elementMap (n.id, i) = 1 ∧
      (lookupMap (ModelTransformer.TransformModel m f ctx).elementMap (n.id, i)).isSome
        = true := by
  intro n hn i hi
  have hcnt : countKey (ModelTransformer.TransformModel m f ctx).elementMap (n.id, i) = 1 := by
    show countKey (m.nodes.foldl (fun t n => f n t) initialTransformer).elementMap (n.id, i) = 1
    rw [transformModel_countKey f hreg m.nodes initialTransformer (n.id, i)]
    have hcp := countP_id_unique m.nodes hnd n hn i hi
    show countKey ([] : PortMap) (n.id, i) +
      m.nodes.countP (fun p => decide (n.id = p.id ∧ i < p.outputs.length)) = 1
    rw [hcp]
    rfl
  exact ⟨hcnt, lookupMap_isSome_of_countKey (by omega)⟩

theorem length_filterMap_lt {α β : Type} (f : α → Option β) :
    ∀ (l : List α) (a : α), a ∈ l → f a = none → (l.filterMap f).length < l.length := by
  intro l
  induction l with
  | nil => intro a ha; simp at ha
  | cons hd rest ih =>
    intro a ha hfa
    rcases List.mem_cons.mp ha with rfl | ha2
    · rw [List.filterMap_cons_none hfa]
      have hle := List.length_filterMap_le f rest
      simp only [List.length_cons]
      omega
    · cases hfd : f hd
      · rw [List.filterMap_cons_none hfd]
        have := ih a ha2 hfa
        simp only [List.length_cons]
        omega
      · next b =>
        rw [List.filterMap_cons_some hfd]
        have := ih a ha2 hfa
        simp only [List.length_cons]
        omega

theorem exists_of_findSome {α β : Type} (f : α → Option β) :
    ∀ (l : List α) (b : β), l.findSome? f = some b → ∃ a ∈ l, f a = some b := by
  intro l
  induction l with
  | nil =>
    intro b h
    have hn : (List.findSome? f [] : Option β) = none := rfl
    rw [hn] at h
    exact absurd h (by simp)
  | cons a rest ih =>
    intro b h
    have hcons : List.findSome? f (a :: rest) =
        match f a with
        | some b => some b
        | none => List.findSome? f rest := rfl
    rw [hcons] at h
    cases hfa : f a with
    | some b2 =>
      rw [hfa] at h
      exact ⟨a, List.mem_cons_self a rest, by rw [hfa]; exact h⟩
    | none =>
      rw [hfa] at h
      obtain ⟨x, hx, hfx⟩ := ih b h
      exact ⟨x, List.mem_cons_of_mem a hx, hfx⟩

theorem fusiblePartner_mem {m : Model} {c p : Node} :
    fusiblePartner m c = some p → p ∈ m.nodes := by
  intro h
  unfold fusiblePartner at h
  split at h
  · split at h
    · next p2 heq =>
      split at h
      · split at h
        · next hc =>
          have hp2 : p2 = p := by injection h
          rw [← hp2]
          exact List.mem_of_find?_eq_some heq
        · exact absurd h (by simp)
      · exact absurd h (by simp)
    · exact absurd h (by simp)
  · exact absurd h (by simp)

theorem contract_length {m : Model} {p c : Node} (hp : p ∈ m.nodes) :
    (contract m p c).nodes.length < m.nodes.length := by
  show (m.nodes.filterMap _).length < m.nodes.length
  apply length_filterMap_lt _ m.nodes p hp
  show (if p.id = p.id then none
    else if p.id = c.id then some ⟨c.id, composeAffine p.kind c.kind, p.inputs, c.outputs⟩
    else some p) = none
  rw [if_pos rfl]

theorem findFusible_mem {m : Model} {p c : Node} (h : findFusible m = some (p, c)) :
    p ∈ m.nodes := by
  obtain ⟨c2, hc2, hfc⟩ := exists_of_findSome _ m.nodes (p, c) h
  cases hfp : fusiblePartner m c2 with
  | none => rw [hfp] at hfc; simp at hfc
  | some p2 =>
    rw [hfp] at hfc
    have hfc2 : some (p2, c2) = some (p, c) := hfc
    have hp2 : p2 = p := congrArg Prod.fst (Option.some.inj hfc2)
    rw [← hp2]
    exact fusiblePartner_mem hfp

theorem fuse_saturates :
    ∀ (fuel : Nat) (m : Model), m.nodes.length ≤ fuel →
      findFusible (fuseSaturate fuel m) = none := by
  intro fuel
  induction fuel with
  | zero =>
    intro m hlen
    have hnil : m.nodes = [] := List.length_eq_zero.mp (by omega)
    show findFusible m = none
    unfold findFusible
    rw [hnil]
    rfl
  | succ fuel ih =>
    intro m hlen
    show findFusible (match findFusible m with
      | none => m
      | some (p, c) => fuseSaturate fuel (contract m p c)) = none
    cases hf : findFusible m with
    | none => exact hf
    | some pc =>
      obtain ⟨p, c⟩ := pc
      apply ih
      have hplt := contract_length (c := c) (findFusible_mem hf)
      omega

theorem findFusible_none_saturate {m : Model} (h : findFusible m = none) :
    ∀ fuel, fuseSaturate fuel m = m := by
  intro fuel
  cases fuel with
  | zero => rfl
  | succ fuel =>
    show (match findFusible m with
      | none => m
      | some (p, c) => fuseSaturate fuel (contract m p c)) = m
    rw [h]

theorem copyModel_char (m : Model) (ctx : TransformContext) (hwf : Model.Wf m) :
    ∃ t, ModelTransformer.CopyModel m ctx = some t ∧
      t.model = ⟨canonAux m.nodes (fun n => n.kind) 0 m.nodes⟩ ∧
      t.elementMap = canonMapAux 0 m.nodes := by
  obtain ⟨t2, hft, hnext, hmdl, hmap, hflag⟩ := copy_char (fun n => n.kind) m hwf
  refine ⟨⟨t2.model, t2.nextId, t2.elementMap, t2.model.nodes.all ctx.IsNodeCompilable⟩,
    ?_, hmdl, hmap⟩
  show (match transformFold (fun n => n.kind) (fun _ => true) m.nodes initialTransformer with
    | none => none
    | some t => some (⟨t.model, t.nextId, t.elementMap,
        t.model.nodes.all ctx.IsNodeCompilable⟩ : ModelTransformer)) = _
  rw [hft]

theorem fullPort_valid (m : Model) : ∀ n ∈ m.nodes, ∀ i, i < n.outputs.length →
    ElemsValidIn m [⟨n.id, i, 0, portSize n i⟩] := by
  intro n hn i hi r hr
  have hreq : r = ⟨n.id, i, 0, portSize n i⟩ := by simpa using hr
  subst hreq
  exact ⟨n, hn, rfl, hi, by show 0 + portSize n i ≤ portSize n i; omega⟩

theorem registeringCallback_registers : RegistersOutputs registeringCallback := by
  intro n t key
  show countKey (mapOutputsAux n.id n.id n.outputs 0 t).elementMap key = _
  rw [mapOutputsAux_spec]
  show countKey (t.elementMap ++ portEntries n.id n.id 0 n.outputs) key = _
  rw [countKey_append, portEntries_count]
  by_cases hc : key.1 = n.id ∧ key.2 < n.outputs.length
  · rw [if_pos ⟨hc.1, Nat.zero_le _, by have := hc.2; omega⟩, if_pos hc]
  · rw [if_neg, if_neg hc]
    rintro ⟨h1, h2, h3⟩
    exact hc ⟨h1, by omega⟩

theorem refineLoop_stub : ∀ k, refineLoop alwaysRefineContext k stubbornModel
    (identityMap stubbornModel) = some (stubbornModel, k, identityMap stubbornModel) := by
  intro k
  induction k with
  | zero => rfl
  | succ k ih =>
    have hstep : refineLoop alwaysRefineContext (k + 1) stubbornModel
        (identityMap stubbornModel) =
        match refineLoop alwaysRefineContext k stubbornModel (identityMap stubbornModel) with
        | none => none
        | some (r, j, a) => some (r, j + 1, a) := rfl
    rw [hstep, ih]

theorem copyRestricted_char (m : Model) (outputNode : Node) (ctx : TransformContext)
    (hwf : Model.Wf m) :
    ∃ t, ModelTransformer.CopyModelRestricted m outputNode ctx = some t ∧
      t.model.nodes =
        canonAux (m.nodes.filter (fun q => decide (q.id ∈ ancestorIds m outputNode.id)))
          (fun n => n.kind) 0
          (m.nodes.filter (fun q => decide (q.id ∈ ancestorIds m outputNode.id))) := by
  have hdep : ∀ (n : Node), ∀ pe ∈ n.inputs, ∀ r ∈ pe, r.nodeId ∈ directDeps n := by
    intro n pe hpe r hr
    exact List.mem_map_of_mem (fun r => r.nodeId) (List.mem_flatten.mpr ⟨pe, hpe, hr⟩)
  have hclosed : ∀ n ∈ m.nodes, decide (n.id ∈ ancestorIds m outputNode.id) = true →
      ∀ pe ∈ n.inputs, ∀ r ∈ pe,
        decide (r.nodeId ∈ ancestorIds m outputNode.id) = true := by
    intro n hn hv pe hpe r hr
    have hmem2 : n.id ∈ ancestorIds m outputNode.id := of_decide_eq_true hv
    have hd := markAux_closed m.nodes [] [outputNode.id]
      (by simpa using depsChain_of_chain m.nodes [] hwf.2)
      (by intro q _; simp) hwf.1 n hn hmem2 r.nodeId (hdep n pe hpe r hr)
    exact decide_eq_true hd
  have hch : ChainV (fun nid => decide (nid ∈ ancestorIds m outputNode.id)) [] m.nodes := by
    have hc := chainV_of_chain (fun nid => decide (nid ∈ ancestorIds m outputNode.id))
      m.nodes [] hwf.2 hclosed
    simpa using hc
  have hnd2 : ((([] : List Node) ++
      m.nodes.filter (fun q => decide (q.id ∈ ancestorIds m outputNode.id))).map
        (fun n => n.id)).Nodup := by
    rw [List.nil_append]
    exact hwf.1.sublist (List.Sublist.map _ (List.filter_sublist _))
  obtain ⟨t2, hft, hn2, hm2, hmap2, hfl⟩ := transformFold_char (fun n => n.kind)
    (fun nid => decide (nid ∈ ancestorIds m outputNode.id)) m.nodes [] initialTransformer
    hch hnd2 rfl rfl rfl
  rw [List.nil_append] at hm2
  refine ⟨⟨t2.model, t2.nextId, t2.elementMap, t2.model.nodes.all ctx.IsNodeCompilable⟩,
    ?_, hm2⟩
  show (match transformFold (fun n => n.kind)
      (fun nid => decide (nid ∈ ancestorIds m outputNode.id)) m.nodes initialTransformer with
    | none => none
    | some t => some (⟨t.model, t.nextId, t.elementMap,
        t.model.nodes.all ctx.IsNodeCompilable⟩ : ModelTransformer)) = _
  rw [hft]

/-- C1: for every model M, every TransformContext, and every k ≥ 1,
RefineModel(M, context, k) terminates within k refinement iterations,
stopping early as soon as an iteration produces no change (no node chose to
refine) or every node reports compilable under the context; when
maxIterations is not supplied it defaults to 10. -/
theorem c1_refineModel_terminates (m : Model) (context : TransformContext) (k : Nat)
    (hwf : Model.Wf m) (hk : 1 ≤ k) :
    (∃ res, ModelTransformer.RefineModel m context k = some res ∧
      res.iterations ≤ k ∧
      (res.iterations < k →
        (res.model.nodes.any (didRefine context) = false ∨
          res.model.nodes.all context.IsNodeCompilable = true))) ∧
    ModelTransformer.RefineModel m context = ModelTransformer.RefineModel m context 10 := by
  obtain ⟨res, hres, -, -, hj, hearly, -⟩ := refineModel_spec m context k hwf
  exact ⟨⟨res, hres, hj, hearly⟩, rfl⟩

/-- Witness for C1 at a concrete well-formed model with budget 3. -/
theorem c1_refineModel_terminates_witness :
    (ModelTransformer.RefineModel exampleModel defaultContext 3).isSome = true := by
  obtain ⟨⟨res, hres, -, -⟩, -⟩ :=
    c1_refineModel_terminates exampleModel defaultContext 3 (by decide) (by decide)
  rw [hres]
  rfl

/-- C2: after any CopyModel, RefineModel, or TransformModel call, every
output port of every visited source node has exactly one registered entry
in the old-to-new mapping, and GetCorrespondingOutputs applied to any such
port (or to PortElements drawn from such ports) succeeds — it never
signals a missing-mapping failure for a visited node's output port.  (For
TransformModel the caller-supplied function must honour the transformer
protocol of registering each visited node's outputs.) -/
theorem c2_mapping_totality (m : Model) (context : TransformContext) (k : Nat)
    (f : Node → ModelTransformer → ModelTransformer)
    (hwf : Model.Wf m) (hreg : RegistersOutputs f) :
    (∃ t, ModelTransformer.CopyModel m context = some t ∧
      (∀ n ∈ m.nodes, ∀ i, i < n.outputs.length →
        countKey t.elementMap (n.id, i) = 1 ∧
        (t.GetCorrespondingOutputs [⟨n.id, i, 0, portSize n i⟩]).isSome = true) ∧
      (∀ elems, ElemsValidIn m elems → (t.GetCorrespondingOutputs elems).isSome = true)) ∧
    (∃ res, ModelTransformer.RefineModel m context k = some res ∧
      (∀ n ∈ m.nodes, ∀ i, i < n.outputs.length →
        countKey res.elementMap (n.id, i) = 1 ∧
        (res.GetCorrespondingOutputs [⟨n.id, i, 0, portSize n i⟩]).isSome = true) ∧
      (∀ elems, ElemsValidIn m elems →
        (res.GetCorrespondingOutputs elems).isSome = true)) ∧
    (∀ n ∈ m.nodes, ∀ i, i < n.outputs.length →
      countKey (ModelTransformer.TransformModel m f context).elementMap (n.id, i) = 1 ∧
      (lookupMap (ModelTransformer.TransformModel m f context).elementMap
        (n.id, i)).isSome = true) := by
  refine ⟨?_, ?_, transformModel_total m f context hreg hwf.1⟩
  · obtain ⟨t, hct, hmdl, hmap⟩ := copyModel_char m context hwf
    have hcov : MapCovers m t.elementMap t.model := by
      rw [hmap, hmdl]
      exact canonMap_covers _ m hwf
    have hgen : ∀ elems, ElemsValidIn m elems →
        (ModelTransformer.GetCorrespondingOutputs t elems).isSome = true := by
      intro elems hval
      obtain ⟨out, hout, -, -⟩ := lookupCorresponding_total hcov elems hval
      show (lookupCorresponding t.elementMap elems).isSome = true
      rw [hout]
      rfl
    refine ⟨t, hct, ?_, hgen⟩
    intro n hn i hi
    refine ⟨?_, hgen _ (fullPort_valid m n hn i hi)⟩
    rw [hmap]
    exact canonMap_count_one m.nodes hwf.1 0 n hn i hi
  · obtain ⟨res, hres, hwfr, haccr, -, -, -⟩ := refineModel_spec m context k hwf
    obtain ⟨hcnt, hcov, hvals⟩ := haccr
    have hgen : ∀ elems, ElemsValidIn m elems →
        (res.GetCorrespondingOutputs elems).isSome = true := by
      intro elems hval
      obtain ⟨out, hout, -, -⟩ := lookupCorresponding_total hcov elems hval
      show (lookupCorresponding res.elementMap elems).isSome = true
      rw [hout]
      rfl
    refine ⟨res, hres, ?_, hgen⟩
    intro n hn i hi
    exact ⟨hcnt n hn i hi, hgen _ (fullPort_valid m n hn i hi)⟩

/-- Witness for C2 at a concrete well-formed model, budget 2, and a
protocol-abiding callback. -/
theorem c2_mapping_totality_witness :
    (ModelTransformer.CopyModel exampleModel defaultContext).isSome = true := by
  obtain ⟨⟨t, hct, -, -⟩, -, -⟩ := c2_mapping_totality exampleModel defaultContext 2
    registeringCallback (by decide) registeringCallback_registers
  rw [hct]
  rfl

/-- C3: for every model M, CopyModel(M, defaultContext) returns a model
isomorphic to M: same node count, same per-node input/output port arity and
element types, and the same edge structure up to relabeling of node
identities (the relabeling is injective on identities); and each output
port of M is mapped to exactly one output port of the result. -/
theorem c3_copy_fidelity (m : Model) (hwf : Model.Wf m) :
    ∃ t, ModelTransformer.CopyModel m defaultContext = some t ∧
      t.model.nodes.length = m.nodes.length ∧
      (∀ j, (h : j < m.nodes.length) → (h2 : j < t.model.nodes.length) →
        (t.model.nodes.get ⟨j, h2⟩).kind = (m.nodes.get ⟨j, h⟩).kind ∧
        (t.model.nodes.get ⟨j, h2⟩).outputs = (m.nodes.get ⟨j, h⟩).outputs ∧
        (t.model.nodes.get ⟨j, h2⟩).inputs.length = (m.nodes.get ⟨j, h⟩).inputs.length ∧
        (t.model.nodes.get ⟨j, h2⟩).inputs =
          (m.nodes.get ⟨j, h⟩).inputs.map (renameElems m.nodes) ∧
        (t.model.nodes.get ⟨j, h2⟩).id = j) ∧
      (∀ p ∈ m.nodes, ∀ q ∈ m.nodes,
        idxOfId m.nodes p.id = idxOfId m.nodes q.id → p.id = q.id) ∧
      (∀ n ∈ m.nodes, ∀ i, i < n.outputs.length →
        countKey t.elementMap (n.id, i) = 1 ∧
        lookupMap t.elementMap (n.id, i) =
          some [⟨idxOfId m.nodes n.id, i, 0, portSize n i⟩]) := by
  obtain ⟨t, hct, hmdl, hmap⟩ := copyModel_char m defaultContext hwf
  have hnodes : t.model.nodes = canonAux m.nodes (fun n => n.kind) 0 m.nodes := by
    rw [hmdl]
  refine ⟨t, hct, ?_, ?_, ?_, ?_⟩
  · rw [hnodes, canonAux_length]
  · intro j h h2
    have h3 : j < (canonAux m.nodes (fun n => n.kind) 0 m.nodes).length := by
      rw [canonAux_length]
      exact h
    have hget : t.model.nodes.get ⟨j, h2⟩ =
        transformedNode m.nodes (fun n => n.kind) j (m.nodes.get ⟨j, h⟩) := by
      rw [List.get_of_eq hnodes ⟨j, h2⟩]
      have hg := canonAux_get m.nodes (fun n => n.kind) m.nodes 0 j h
        (by rw [canonAux_length]; exact h)
      rw [Nat.zero_add] at hg
      exact hg
    rw [hget]
    exact ⟨rfl, rfl, by simp, rfl, rfl⟩
  · intro p hp q hq heq
    obtain ⟨⟨jp, hjp⟩, hgp⟩ := List.mem_iff_get.mp hp
    obtain ⟨⟨jq, hjq⟩, hgq⟩ := List.mem_iff_get.mp hq
    have h1 := idxOfId_get m.nodes hwf.1 jp hjp
    have h2 := idxOfId_get m.nodes hwf.1 jq hjq
    rw [hgp] at h1
    rw [hgq] at h2
    rw [h1, h2] at heq
    rw [← hgp, ← hgq]
    subst heq
    rfl
  · intro n hn i hi
    constructor
    · rw [hmap]
      exact canonMap_count_one m.nodes hwf.1 0 n hn i hi
    · rw [hmap]
      obtain ⟨⟨j, hj⟩, hget⟩ := List.mem_iff_get.mp hn
      have hlook := canonMap_lookup m.nodes hwf.1 0 j hj i (by rw [hget]; exact hi)
      rw [hget, Nat.zero_add] at hlook
      rw [hlook]
      have hidx := idxOfId_get m.nodes hwf.1 j hj
      rw [hget] at hidx
      rw [hidx]

/-- Witness for C3 at a concrete well-formed model. -/
theorem c3_copy_fidelity_witness :
    ∃ t, ModelTransformer.CopyModel exampleModel defaultContext = some t ∧
      t.model.nodes.length = exampleModel.nodes.length := by
  obtain ⟨t, hct, hlen, -, -, -⟩ := c3_copy_fidelity exampleModel (by decide)
  exact ⟨t, hct, hlen⟩

/-- C4: if RefineModel exhausts maxIterations without reaching a compilable
fixed point — for example, under a context whose decision function always
returns refine for a node variant whose Refine never changes it — the call
does not raise an error: it returns the latest (best-effort) model and a
subsequent IsModelCompilable() on the result reports false. -/
theorem c4_nonconvergence_not_error :
    (∀ (m : Model) (context : TransformContext) (k : Nat), Model.Wf m →
      ∃ res, ModelTransformer.RefineModel m context k = some res ∧
        res.IsModelCompilable = res.model.nodes.all context.IsNodeCompilable) ∧
    ∀ k : Nat, ∃ res,
      ModelTransformer.RefineModel stubbornModel alwaysRefineContext k = some res ∧
      res.iterations = k ∧ res.IsModelCompilable = false ∧ res.model = stubbornModel := by
  constructor
  · intro m context k hwf
    obtain ⟨res, hres, -, -, -, -, hflag⟩ := refineModel_spec m context k hwf
    exact ⟨res, hres, hflag⟩
  · intro k
    refine ⟨⟨stubbornModel, k, false, identityMap stubbornModel⟩, ?_, rfl, rfl, rfl⟩
    show (match refineLoop alwaysRefineContext k stubbornModel (identityMap stubbornModel) with
      | none => none
      | some (r, j, a) => some (⟨r, j, r.nodes.all alwaysRefineContext.IsNodeCompilable, a⟩
            : RefineResult)) = _
    rw [refineLoop_stub k]
    rfl

/-- Witness for C4: a generic well-formed model succeeds, and the stubborn
model under the always-refine context exhausts 10 iterations. -/
theorem c4_nonconvergence_not_error_witness :
    (ModelTransformer.RefineModel exampleModel defaultContext 2).isSome = true ∧
    (ModelTransformer.RefineModel stubbornModel alwaysRefineContext 10).isSome = true := by
  obtain ⟨h1, h2⟩ := c4_nonconvergence_not_error
  constructor
  · obtain ⟨res, hres, -⟩ := h1 exampleModel defaultContext 2 (by decide)
    rw [hres]
    rfl
  · obtain ⟨res, hres, -, -, -⟩ := h2 10
    rw [hres]
    rfl

/-- C5: for every model M and every node n of M, the restricted copy
CopyModel(M, n, context) returns a model containing exactly the
backward-reachable ancestor closure of n: the marked identity set agrees
with reflexive-transitive backward reachability, and the resulting model
is the canonical re-emission of exactly the marked nodes (every node of M
not backward-reachable from n is absent). -/
theorem c5_restricted_copy_ancestors (m : Model) (outputNode : Node)
    (ctx : TransformContext) (hwf : Model.Wf m) (hmem : outputNode ∈ m.nodes) :
    (∀ n ∈ m.nodes,
      (Relation.ReflTransGen (DependsOn m) outputNode.id n.id ↔
        n.id ∈ ancestorIds m outputNode.id)) ∧
    ∃ t, ModelTransformer.CopyModelRestricted m outputNode ctx = some t ∧
      t.model.nodes =
        canonAux (m.nodes.filter (fun q => decide (q.id ∈ ancestorIds m outputNode.id)))
          (fun n => n.kind) 0
          (m.nodes.filter (fun q => decide (q.id ∈ ancestorIds m outputNode.id))) ∧
      t.model.nodes.length =
        (m.nodes.filter (fun q => decide (q.id ∈ ancestorIds m outputNode.id))).length := by
  refine ⟨fun n _ => ancestorIds_iff m hwf outputNode.id n.id, ?_⟩
  obtain ⟨t, hct, hm⟩ := copyRestricted_char m outputNode ctx hwf
  exact ⟨t, hct, hm, by rw [hm, canonAux_length]⟩

/-- Witness for C5 at a concrete well-formed model and its affine node. -/
theorem c5_restricted_copy_ancestors_witness :
    (ModelTransformer.CopyModelRestricted exampleModel
      ⟨1, NodeKind.affine 2 3, [[⟨0, 0, 0, 4⟩]], [(PortType.real, 4)]⟩
      defaultContext).isSome = true := by
  obtain ⟨-, t, hct, -, -⟩ := c5_restricted_copy_ancestors exampleModel
    ⟨1, NodeKind.affine 2 3, [[⟨0, 0, 0, 4⟩]], [(PortType.real, 4)]⟩
    defaultContext (by decide) (by decide)
  rw [hct]
  rfl

/-- C6: the linear-operation fusion pass composes a chain of two affine
nodes with parameters (scale1, bias1) applied first and (scale2, bias2)
applied second into a single affine node with scale = scale2 * scale1 and
bias = scale2 * bias1 + bias2; concretely, the chain (2, 3) then (5, 1)
fuses to the node (10, 16). -/
theorem c6_fusion_composes_affine :
    (∀ scale1 bias1 scale2 bias2 : Int,
      FuseLinearOperationsPass (affineChainModel scale1 bias1 scale2 bias2) =
        affineFusedModel (scale2 * scale1) (scale2 * bias1 + bias2)) ∧
    FuseLinearOperationsPass (affineChainModel 2 3 5 1) = affineFusedModel 10 16 := by
  refine ⟨fun scale1 bias1 scale2 bias2 => rfl, ?_⟩
  decide

/-- C7: the linear-operation fusion pass is idempotent: for every model,
running the pass a second time on the pass's output leaves it unchanged. -/
theorem c7_fusion_idempotent (m : Model) :
    FuseLinearOperationsPass (FuseLinearOperationsPass m) = FuseLinearOperationsPass m := by
  have hnone := fuse_saturates m.nodes.length m (Nat.le_refl _)
  exact findFusible_none_saturate hnone _

/-- C8: for every convolution node rewritten by the convolution-method
selection pass, the replacement node has input and output ports identical
to the original node, regardless of which implementation strategy the pass
selects, and no part of the graph outside the rewritten node changes
topology: the pass is a node-for-node substitution preserving identities,
inputs and outputs, and leaving non-convolution nodes untouched. -/
theorem c8_conv_retarget_preserves_signature (target : TargetConfiguration) (m : Model) :
    (SetConvolutionMethodPass target m).nodes = m.nodes.map (retargetNode target) ∧
    (SetConvolutionMethodPass target m).nodes.length = m.nodes.length ∧
    ∀ n ∈ m.nodes,
      (retargetNode target n).id = n.id ∧
      (retargetNode target n).inputs = n.inputs ∧
      (retargetNode target n).outputs = n.outputs ∧
      ((∀ me isz osz, n.kind ≠ NodeKind.conv me isz osz) → retargetNode target n = n) ∧
      (∀ me isz osz, n.kind = NodeKind.conv me isz osz →
        (retargetNode target n).kind =
          NodeKind.conv (chooseConvolutionMethod target isz osz) isz osz) := by
  refine ⟨rfl, by simp [SetConvolutionMethodPass], ?_⟩
  intro n _
  unfold retargetNode
  cases hk : n.kind with
  | conv me isz osz =>
    refine ⟨rfl, rfl, rfl, fun hno => absurd rfl (hno me isz osz), ?_⟩
    intro me2 isz2 osz2 heq
    injection heq with h1 h2 h3
    subst h2
    subst h3
    rfl
  | input t sz =>
    exact ⟨rfl, rfl, rfl, fun _ => rfl, fun me2 isz2 osz2 heq => NodeKind.noConfusion heq⟩
  | affine s b =>
    exact ⟨rfl, rfl, rfl, fun _ => rfl, fun me2 isz2 osz2 heq => NodeKind.noConfusion heq⟩
  | stubborn tg =>
    exact ⟨rfl, rfl, rfl, fun _ => rfl, fun me2 isz2 osz2 heq => NodeKind.noConfusion heq⟩
  | lowerable st =>
    exact ⟨rfl, rfl, rfl, fun _ => rfl, fun me2 isz2 osz2 heq => NodeKind.noConfusion heq⟩
  | sink tg =>
    exact ⟨rfl, rfl, rfl, fun _ => rfl, fun me2 isz2 osz2 heq => NodeKind.noConfusion heq⟩

/-- C9: for every node n and every TransformContext c, c.IsNodeCompilable(n)
returns true if and only if c's decision function does not return the
refine action for n and n's variant self-reports as compilable. -/
theorem c9_isNodeCompilable_iff (context : TransformContext) (node : Node) :
    context.IsNodeCompilable node = true ↔
      (context.GetNodeAction node ≠ NodeAction.refine ∧
        node.kind.IsCompilable = true) := by
  unfold TransformContext.IsNodeCompilable
  cases hact : context.GetNodeAction node <;> simp

/-- C10: a default-constructed DataLoadArguments struct has
inputDataFilename equal to the empty string, dataDimension equal to the
empty string, parsedDataDimension equal to 0, and scale equal to 1 — with
no arguments supplied, post-processing scaling is the identity and no data
dimension is assumed. -/
theorem c10_dataLoadArguments_defaults :
    (({} : DataLoadArguments).inputDataFilename = "" ∧
      ({} : DataLoadArguments).dataDimension = "" ∧
      ({} : DataLoadArguments).parsedDataDimension = 0 ∧
      ({} : DataLoadArguments).scale = 1) ∧
    ∀ x : Rat, applyScale {} x = x := by
  refine ⟨⟨rfl, rfl, rfl, rfl⟩, fun x => ?_⟩
  show (1 : Rat) * x = x
  exact one_mul x

end ell
